import Mathlib

/-!
# Library loading and key/directory repair (`cmd/general.go`)

A shallow embedding of `clean`, `update`, `checkDirKey` and `entryList` of
`cmd/general.go`, over an explicit model of the library directory, followed by
the properties established about them.

Conventions of the embedding:

* a Go `panic` is the `Except.error` result of the embedded function;
* the library directory is a finite association list from names to nodes, the
  names standing for single path components below the library root;
* `fmt.Println` appends one element to the `out` list of the world;
* `entryList` is embedded twice: as a function, for the schedule in which each
  goroutine runs to its end before the next one starts, and as a step relation
  over configurations, in which the goroutines interleave statement by
  statement; the run of the function is one of the interleavings
  (`entryList_reachable`);
* paths are printed as on a system whose separator is the slash.
-/

set_option autoImplicit false

namespace Scholar

/-! ## Filename sanitisation: `clean` -/

/-- Class `[[:alnum:]]` of the Go regexp syntax: the ASCII digits and letters. -/
def isAlnum (c : Char) : Bool :=
  (48 ≤ c.toNat && c.toNat ≤ 57) || (65 ≤ c.toNat && c.toNat ≤ 90) ||
    (97 ≤ c.toNat && c.toNat ≤ 122)

/-- Class `[[:space:]]` of the Go regexp syntax: tab, newline, vertical tab,
form feed, carriage return and the space. -/
def isSpace (c : Char) : Bool :=
  (9 ≤ c.toNat && c.toNat ≤ 13) || c.toNat = 32

/-- One rune matches the negated class `[^[:alnum:][:space:]]`. -/
def rxMatch (c : Char) : Bool :=
  !(isAlnum c || isSpace c)

/-- The call `rx.ReplaceAllString(filename, " ")` for the expression
`[^[:alnum:][:space:]]+`: every maximal run of matching runes is replaced by one
space. The flag tells that the preceding rune belonged to a run whose
replacement has been written already. The input is the rune sequence the
regexp engine decodes (a byte that is not UTF-8 decodes to U+FFFD, which
matches the negated class). -/
def replaceAllRuns : Bool → List Char → List Char
  | _, [] => []
  | inRun, c :: cs =>
    if rxMatch c then
      (if inRun then replaceAllRuns true cs else ' ' :: replaceAllRuns true cs)
    else c :: replaceAllRuns false cs

/-- The call `strings.Replace(filename, " ", "_", -1)`. -/
def replaceSpaces (cs : List Char) : List Char :=
  cs.map (fun c => if c = ' ' then '_' else c)

/-- The function `clean`. The regular expression is a constant that compiles,
so the early return on a compile error is never taken. `strings.ToLower` is
applied to text that is ASCII by then, where it lowers `A`-`Z` only. -/
def clean (filename : String) : String :=
  ⟨(replaceSpaces (replaceAllRuns false filename.data)).map Char.toLower⟩

/-- Output alphabet named by the statement about `clean`: lowercase ASCII
letter, ASCII digit, underscore, or one of tab, newline, vertical tab, form
feed, carriage return. -/
def cleanAlphabet (c : Char) : Prop :=
  (97 ≤ c.toNat ∧ c.toNat ≤ 122) ∨ (48 ≤ c.toNat ∧ c.toNat ≤ 57) ∨ c = '_' ∨
    c = '\t' ∨ c = '\n' ∨ c = '\x0b' ∨ c = '\x0c' ∨ c = '\r'

/-! ## The library directory -/

/-- Error numbers of the file operations the code calls. -/
inductive Errno
  | ENOENT
  | EEXIST
  | ENOTDIR
  | EACCES
  | EINVAL
deriving DecidableEq, Repr

/-- A regular file: its bytes and whether the process may read and write it. -/
structure File where
  data : String
  readable : Bool
  writable : Bool
deriving DecidableEq, Repr

/-- A directory below the library root: its `entry.yaml` if it has one, whatever
else it holds (attachments, by name and content), and whether the process may
create a file in it. -/
structure Dir where
  entryYaml : Option File
  others : List (String × String)
  canCreate : Bool
deriving DecidableEq, Repr

/-- What a name in the library root refers to. -/
inductive Node
  | file (f : File)
  | dir (d : Dir)
deriving DecidableEq, Repr

/-- The content of the library root, by name. The order of the list is the order
in which the goroutines of `entryList` get to run. -/
abbrev Lib := List (String × Node)

/-- The file system keeps names unique within a directory. -/
def Lib.WF (fs : Lib) : Prop :=
  (fs.map Prod.fst).Nodup

instance (fs : Lib) : Decidable fs.WF :=
  inferInstanceAs (Decidable (fs.map Prod.fst).Nodup)

/-- The node a name of the library root refers to. -/
def lookup : Lib → String → Option Node
  | [], _ => none
  | (n, x) :: rest, name => if n = name then some x else lookup rest name

/-- Tells whether a name refers to a directory. -/
def isDirAt (fs : Lib) (name : String) : Bool :=
  match lookup fs name with
  | some (.dir _) => true
  | _ => false

/-- Gives the name `new` to what is called `old`. -/
def relabel (fs : Lib) (old new : String) : Lib :=
  fs.map (fun p => (if p.1 = old then new else p.1, p.2))

/-- Removes a name. -/
def remove (fs : Lib) (name : String) : Lib :=
  fs.filter (fun p => decide (p.1 ≠ name))

/-- The name does not stay below the library root: `filepath.Join(path, name)`
drops an empty element and a `.` element, which gives the library root itself,
and climbs to the parent of the root on `..`. -/
def aboveRoot (name : String) : Bool :=
  name = "" || name = "." || name = ".."

/-- Renaming within the library root, for two names that are entries of it:
Go refuses a target that is a directory (`EEXIST`), the system call refuses to
put a directory over a regular file (`ENOTDIR`), and a regular file replaces a
regular file. -/
def renameEntry (fs : Lib) (old new : String) : Except Errno Lib :=
  match lookup fs old, lookup fs new with
  | none, _ => .error .ENOENT
  | some _, some (.dir _) => .error .EEXIST
  | some (.dir _), some (.file _) => .error .ENOTDIR
  | some (.file _), some (.file _) =>
    if old = new then .ok fs else .ok (relabel (remove fs new) old new)
  | some _, none => .ok (relabel fs old new)

/-- The call `os.Rename(filepath.Join(path, old), filepath.Join(path, new))` for
names without a separator. A source that is the library root or its parent
cannot be moved below the root (`EINVAL`); a target that is the library root or
its parent is an existing directory, which Go refuses (`EEXIST`). A name with a
separator leads into a subdirectory or out of the library, which this model of
the library root does not follow: the statements that rename onto an allocated
key ask for a key that is one path component. -/
def osRename (fs : Lib) (old new : String) : Except Errno Lib :=
  if aboveRoot old then .error .EINVAL
  else if aboveRoot new then
    match lookup fs old with
    | none => .error .ENOENT
    | some _ => .error .EEXIST
  else renameEntry fs old new

/-- The call `ioutil.ReadFile(filepath.Join(path, dir, "entry.yaml"))`. -/
def readEntryYaml (fs : Lib) (dir : String) : Except Errno String :=
  match lookup fs dir with
  | some (.dir d) =>
    match d.entryYaml with
    | some f => if f.readable then .ok f.data else .error .EACCES
    | none => .error .ENOENT
  | some (.file _) => .error .ENOTDIR
  | none => .error .ENOENT

/-- Effect of `ioutil.WriteFile(file, data, 0644)` on the directory that is to
hold the file: an existing file is truncated and rewritten when it is writable,
a missing one is created with mode 0644 when the directory allows it. -/
def writeYamlIn (d : Dir) (data : String) : Except Errno Dir :=
  match d.entryYaml with
  | some f =>
    if f.writable then .ok { d with entryYaml := some { f with data := data } }
    else .error .EACCES
  | none =>
    if d.canCreate then .ok { d with entryYaml := some ⟨data, true, true⟩ }
    else .error .EACCES

/-- The call `ioutil.WriteFile(filepath.Join(saveTo, "entry.yaml"), data, 0644)`
with `saveTo` the directory `dir` of the library. -/
def writeEntryYaml (fs : Lib) (dir : String) (data : String) : Except Errno Lib :=
  match lookup fs dir with
  | some (.dir d) =>
    match writeYamlIn d data with
    | .ok d' => .ok (fs.map (fun p => (p.1, if p.1 = dir then Node.dir d' else p.2)))
    | .error err => .error err
  | some (.file _) => .error .ENOTDIR
  | none => .error .ENOENT

/-- One item of `ioutil.ReadDir`. -/
structure FileInfo where
  Name : String
  IsDir : Bool
deriving DecidableEq, Repr

/-- The call `ioutil.ReadDir(path)` on an existing library root. -/
def readDir (fs : Lib) : List FileInfo :=
  fs.map (fun p => ⟨p.1, match p.2 with | .dir _ => true | .file _ => false⟩)

/-- Names of the directories of the library, in listing order. -/
def dirNames (fs : Lib) : List String :=
  ((readDir fs).filter (fun i => i.IsDir)).map (fun i => i.Name)

/-! ## Paths as printed: `filepath.Join` -/

/-- Components of a slash-separated path. -/
def splitSlash : List Char → List (List Char)
  | [] => [[]]
  | c :: cs =>
    if c = '/' then [] :: splitSlash cs
    else
      match splitSlash cs with
      | [] => [[c]]
      | x :: xs => (c :: x) :: xs

/-- One component as `filepath.Clean` treats it; the stack holds the components
kept so far, the last one first. Empty and `.` components are dropped, `..`
removes the component before it, is dropped at the root, and is kept at the
start of a relative path. -/
def cleanStep (rooted : Bool) (stack : List (List Char)) (comp : List Char) :
    List (List Char) :=
  if comp = [] ∨ comp = ['.'] then stack
  else if comp = ['.', '.'] then
    match stack with
    | [] => if rooted then [] else [comp]
    | top :: rest => if top = ['.', '.'] then comp :: stack else rest
  else comp :: stack

/-- Components written with one slash between them. -/
def joinSlash : List (List Char) → List Char
  | [] => []
  | [x] => x
  | x :: y :: rest => x ++ '/' :: joinSlash (y :: rest)

/-- The function `filepath.Clean` (slash-separated paths). -/
def cleanPath (p : List Char) : List Char :=
  match p with
  | [] => ['.']
  | c :: _ =>
    let rooted := decide (c = '/')
    let comps := ((splitSlash p).foldl (cleanStep rooted) []).reverse
    if rooted then '/' :: joinSlash comps
    else if comps = [] then ['.'] else joinSlash comps

/-- The call `filepath.Join(a, b)`: empty leading elements are ignored and the
rest, joined by a slash, is cleaned. -/
def filepathJoin (a b : String) : String :=
  if a ≠ "" then ⟨cleanPath (a.data ++ '/' :: b.data)⟩
  else if b ≠ "" then ⟨cleanPath b.data⟩
  else ""

/-- A name as a directory listing gives it: one path component, neither empty
nor `.` nor `..`. -/
def validName (n : String) : Prop :=
  n.data ≠ [] ∧ n.data ≠ ['.'] ∧ n.data ≠ ['.', '.'] ∧ '/' ∉ n.data

/-- Text written by `fmt.Println` for string operands: the operands with one
space between them. -/
def printlnText : List String → String
  | [] => ""
  | [x] => x
  | x :: y :: rest => x ++ " " ++ printlnText (y :: rest)

/-! ## Entries and the collaborators of the loader -/

/-- The record `scholar.Entry`: the field `Key` that `checkDirKey` assigns, and
the remaining fields, which the loader never inspects. -/
structure Entry where
  Key : String
  fields : List (String × String)
deriving DecidableEq, Repr

/-- Modelled from the spec: the method `GetKey` of `scholar.Entry` lives in
package `scholar`, which is not part of the sources at hand. The spec identifies
the canonical key with the key the entry stores (an entry "whose stored key
differs from their directory name" is what the repair handles, and after
"Assign the new key to the Entry's `Key` field" the directory is renamed "to
the new key", which the code obtains from `GetKey`). -/
def Entry.GetKey (e : Entry) : String :=
  e.Key

/-- The collaborators of the loader that the file only calls: the YAML codec and
the key allocator `getUniqueKey`, which consults the library as it is at the
time of the call. An error of the codec is `none`. -/
structure Env where
  unmarshal : String → Option Entry
  marshal : Entry → Option String
  getUniqueKey : Lib → String → String

/-- The allocator returns a name that nothing in the library bears. -/
def Env.Fresh (env : Env) : Prop :=
  ∀ (fs : Lib) (key : String), lookup fs (env.getUniqueKey fs key) = none

/-- The allocator hands back the desired key when nothing bears it. -/
def Env.KeepsFree (env : Env) : Prop :=
  ∀ (fs : Lib) (key : String), lookup fs key = none → env.getUniqueKey fs key = key

/-- State the loader acts on: the library and the lines printed so far. -/
structure World where
  fs : Lib
  out : List String
deriving DecidableEq, Repr

deriving instance DecidableEq for Except

/-- Reasons for which the loader panics. -/
inductive Panic
  | readFile (err : Errno)
  | unmarshal
  | renameToTmp (err : Errno)
  | renameFromTmp (err : Errno)
  | marshal
deriving DecidableEq, Repr

/-! ## `update`, `checkDirKey`, `entryList` -/

/-- The function `update`, on the library the configuration names: it panics
when the entry cannot be serialised and discards the result of
`ioutil.WriteFile`, so a failed write leaves the library as it was. -/
def update (env : Env) (fs : Lib) (entry : Entry) : Except Panic Lib :=
  let key := entry.GetKey
  match env.marshal entry with
  | none => .error .marshal
  | some d =>
    match writeEntryYaml fs key d with
    | .ok fs' => .ok fs'
    | .error _ => .ok fs

/-- The reserved name the repair parks a directory under. -/
def tmpName : String := ".tmp.scholar"

/-- The two lines the repair prints. -/
def auditLines (path dir key : String) : List String :=
  ["Renamed:", printlnText [" ", filepathJoin path dir, ">", filepathJoin path key]]

/-- The function `checkDirKey`, called with the root `path` of the library that
`update` writes to (its only call passes `libraryPath()`). The result holds the
entry as the caller sees it afterwards. -/
def checkDirKey (env : Env) (path dir : String) (w : World) (e : Entry) :
    Except Panic (World × Entry) :=
  if dir = e.GetKey then .ok (w, e)
  else
    match osRename w.fs dir tmpName with
    | .error err => .error (.renameToTmp err)
    | .ok fs1 =>
      let e1 : Entry := { e with Key := env.getUniqueKey fs1 e.GetKey }
      match osRename fs1 tmpName e1.GetKey with
      | .error err => .error (.renameFromTmp err)
      | .ok fs2 =>
        match update env fs2 e1 with
        | .error p => .error p
        | .ok fs3 =>
          .ok ({ fs := fs3, out := w.out ++ auditLines path dir e1.GetKey }, e1)

/-- Body of the goroutine `entryList` starts for one item of the listing, run
without interruption: the world and the entries collected so far go in, and
come out with the entry of this item appended. -/
def worker (env : Env) (path : String) (acc : World × List Entry) (dir : FileInfo) :
    Except Panic (World × List Entry) :=
  if dir.IsDir then
    match readEntryYaml acc.1.fs dir.Name with
    | .error err => .error (.readFile err)
    | .ok d =>
      match env.unmarshal d with
      | none => .error .unmarshal
      | some e =>
        match checkDirKey env path dir.Name acc.1 e with
        | .error p => .error p
        | .ok (w', e') => .ok (w', acc.2 ++ [e'])
  else .ok acc

/-- The goroutines of `entryList`, one after the other. -/
def runWorkers (env : Env) (path : String) :
    World × List Entry → List FileInfo → Except Panic (World × List Entry)
  | acc, [] => .ok acc
  | acc, d :: ds =>
    match worker env path acc d with
    | .error p => .error p
    | .ok acc' => runWorkers env path acc' ds

/-- The function `entryList` on an existing library root `path`, for the
schedule that runs each goroutine to its end in listing order. A panic of a
goroutine ends the process, so nothing is returned then. -/
def entryList (env : Env) (path : String) (w : World) : Except Panic (List Entry × World) :=
  match runWorkers env path (w, []) (readDir w.fs) with
  | .error p => .error p
  | .ok (w', entries) => .ok (entries, w')

/-- A directory whose metadata cannot be read or does not deserialize. -/
def badDir (env : Env) (d : Dir) : Prop :=
  d.entryYaml = none ∨
    ∃ f, d.entryYaml = some f ∧ (f.readable = false ∨ env.unmarshal f.data = none)

/-- The directory as `update` leaves it: rewritten when the write goes through,
untouched when it fails. -/
def afterWrite (d : Dir) (data : String) : Dir :=
  match writeYamlIn d data with
  | .ok d' => d'
  | .error _ => d

/-- The directory `n` of the library is in step with its metadata: its
`entry.yaml` can be read and deserializes to an entry whose key is `n`. -/
def InStep (env : Env) (fs : Lib) (n : String) : Prop :=
  ∃ d f e, lookup fs n = some (.dir d) ∧ d.entryYaml = some f ∧ f.readable = true ∧
    env.unmarshal f.data = some e ∧ e.GetKey = n

/-- Every `entry.yaml` of the library can be written. -/
def MetaWritable (fs : Lib) : Prop :=
  ∀ n d f, lookup fs n = some (.dir d) → d.entryYaml = some f → f.writable = true

/-- Deserializing what the codec has serialised gives the entry back. -/
def Env.RoundTrip (env : Env) : Prop :=
  ∀ e y, env.marshal e = some y → env.unmarshal y = some e

/-- What holds between two goroutines of a load whose goroutines run one after
the other, `ds` being the items whose goroutine has yet to run: names are
distinct, every `entry.yaml` can be written, the directories yet to be handled
are there, every other directory is in step with its metadata, and the keys
collected are the names of those other directories. -/
def LoadInv (env : Env) (w : World) (es : List Entry) (ds : List FileInfo) : Prop :=
  w.fs.WF ∧ MetaWritable w.fs ∧ (ds.map (fun i => i.Name)).Nodup ∧
  (∀ j ∈ ds, j.IsDir = true → isDirAt w.fs j.Name = true) ∧
  (∀ n, isDirAt w.fs n = true → (⟨n, true⟩ : FileInfo) ∈ ds ∨ InStep env w.fs n) ∧
  (∀ k, k ∈ es.map (fun e => e.Key) ↔
    isDirAt w.fs k = true ∧ (⟨k, true⟩ : FileInfo) ∉ ds)

/-! ## A concrete codec and allocator, for the instances below -/

/-- Text after the leading `key: ` of a one-line YAML document. -/
def stripKey : List Char → Option (List Char)
  | 'k' :: 'e' :: 'y' :: ':' :: ' ' :: rest => some rest
  | _ => none

/-- A codec for entries that have a key and nothing else, stored as the one-line
YAML document `key: <key>`. -/
def lineUnmarshal (s : String) : Option Entry :=
  match stripKey s.data with
  | some k => some { Key := ⟨k⟩, fields := [] }
  | none => none

/-- Serialisation matching `lineUnmarshal`; an entry with further fields is
beyond this codec. -/
def lineMarshal (e : Entry) : Option String :=
  if e.fields = [] then some ("key: " ++ e.Key) else none

/-- Tries the key, then the key with one more `a` appended each time, until a
name is free; the fuel is the number of attempts left. -/
def suffixSearch (fs : Lib) : Nat → String → String
  | 0, key => key
  | fuel + 1, key => if (lookup fs key).isSome then suffixSearch fs fuel (key ++ "a") else key

/-- Modelled from the spec: `getUniqueKey` is defined in a file of package `cmd`
that is not part of the sources at hand. The spec has the Key Allocator return,
for a desired key, "a key guaranteed unique within the library (disambiguating
collisions, e.g. by suffixing)", consulting "live directory state". One more
attempt than the library has names always reaches a free name. -/
def suffixAlloc (fs : Lib) (key : String) : String :=
  suffixSearch fs (fs.length + 1) key

/-- The collaborators used in the instances. -/
def lineEnv : Env :=
  { unmarshal := lineUnmarshal, marshal := lineMarshal, getUniqueKey := suffixAlloc }

/-- Content of an entry directory whose `entry.yaml` stores the given key; the
file is writable or read-only as the flag says. -/
def dirOfKey (key : String) (writable : Bool) : Dir :=
  { entryYaml := some ⟨"key: " ++ key, true, writable⟩, others := [], canCreate := true }

/-- An entry directory whose `entry.yaml` stores the given key. -/
def dirWithKey (key : String) : Node :=
  .dir (dirOfKey key true)

/-- An entry directory whose `entry.yaml` stores the given key and is read-only
(mode 0444). -/
def readOnlyDirWithKey (key : String) : Node :=
  .dir (dirOfKey key false)

/-- The entry with the given key and no other field. -/
def entryOfKey (key : String) : Entry :=
  { Key := key, fields := [] }

/-- Two directories whose entries both store the key `smith2020`. -/
def libCollision : World :=
  { fs := [("smith2020a", dirWithKey "smith2020"), ("zz", dirWithKey "smith2020")], out := [] }

/-- The directory of a first paper by Smith from 2020: its metadata and the
paper. -/
def smithPaper : Dir :=
  { entryYaml := some ⟨"key: smith2020", true, true⟩, others := [("paper.pdf", "%PDF-1.4 A")],
    canCreate := true }

/-- The directory of a second paper by Smith from 2020: its metadata, the paper
and notes. -/
def smithTalk : Dir :=
  { entryYaml := some ⟨"key: smith2020", true, true⟩,
    others := [("talk.pdf", "%PDF-1.5 B"), ("notes.md", "to read")], canCreate := true }

/-- The two papers under directory names that are out of step with their key,
next to a third entry and a plain file. -/
def libTwoPapers : World :=
  { fs := [("draft", .dir smithPaper), ("doe2017", dirWithKey "doe2017"),
      ("inbox", .dir smithTalk), ("README", .file ⟨"my library", true, true⟩)], out := [] }

/-- The same two entries under other names, next to a directory `.tmp.scholar`
that an interrupted repair left behind. -/
def libStaleTmp : World :=
  { fs := [("jones2019", dirWithKey "smith2020"), ("zz", dirWithKey "smith2020"),
      (".tmp.scholar", dirWithKey "doe2017")], out := [] }

/-- A directory `doe2018` whose read-only `entry.yaml` stores the key
`smith2020`, next to the directory `smith2020`. -/
def libReadOnly : World :=
  { fs := [("doe2018", readOnlyDirWithKey "smith2020"), ("smith2020", dirWithKey "smith2020")],
    out := [] }

/-- A directory `old_key` whose read-only `entry.yaml` stores the key `new_key`. -/
def libReadOnlyMeta : World :=
  { fs := [("old_key", readOnlyDirWithKey "new_key")], out := [] }

/-- A directory `old_key` whose entry stores the key `new_key`. -/
def libAudit : World :=
  { fs := [("old_key", dirWithKey "new_key")], out := [] }

/-- The directory `old_key` next to a directory `.tmp.scholar` that an
interrupted repair left behind. -/
def libAuditStaleTmp : World :=
  { fs := [("old_key", dirWithKey "new_key"), (".tmp.scholar", dirWithKey "doe2017")],
    out := [] }

/-- A library of two entries in step with their directories, and a plain file. -/
def libClean : World :=
  { fs := [("doe2017", dirWithKey "doe2017"), ("notes.txt", .file ⟨"todo", true, true⟩),
      ("smith2020", dirWithKey "smith2020")], out := [] }

/-- A library in which the directory `doe2017` has lost its `entry.yaml`. -/
def libMissingMeta : World :=
  { fs := [("smith2020", dirWithKey "smith2020"),
      ("doe2017", .dir { entryYaml := none, others := [("paper.pdf", "%PDF")], canCreate := true })],
    out := [] }

/-! ## The goroutines of `entryList`, statement by statement -/

/-- Where a goroutine of `entryList` stands: launched; metadata read and
deserialized; first rename done, its directory sitting under `.tmp.scholar`;
key assigned from `getUniqueKey`; second rename done; returned. -/
inductive Phase
  | start
  | loaded (e : Entry)
  | holding (e : Entry)
  | allocated (e : Entry)
  | moved (e : Entry)
  | finished
deriving DecidableEq, Repr

/-- A goroutine: the item of the listing it was started for, and where it stands. -/
structure Goroutine where
  dir : FileInfo
  phase : Phase
deriving DecidableEq, Repr

/-- The goroutine is between its two renames: its directory occupies the
reserved name. -/
def Goroutine.holdsTmp (g : Goroutine) : Bool :=
  match g.phase with
  | .holding _ => true
  | .allocated _ => true
  | _ => false

/-- The goroutine has yet to look at, or to rename, the directory it was
started for. -/
def Goroutine.waiting (g : Goroutine) : Bool :=
  match g.phase with
  | .start => g.dir.IsDir
  | .loaded _ => true
  | _ => false

/-- The goroutine has returned. -/
def Goroutine.returned (g : Goroutine) : Bool :=
  match g.phase with
  | .finished => true
  | _ => false

/-- The goroutine has returned after sending an entry to the queue. -/
def Goroutine.published (g : Goroutine) : Bool :=
  g.dir.IsDir && g.returned

/-- The next statements of one goroutine, up to and including its next call
that touches the library or the queue; `none` once it has returned. The read
and the deserialization, the comparison and the first rename, the allocation,
the second rename, and `update` with the two prints and the send are the
steps. -/
def stepGoroutine (env : Env) (path : String) (w : World) (entries : List Entry)
    (g : Goroutine) : Option (Except Panic (World × List Entry × Goroutine)) :=
  match g.phase with
  | .start =>
    if g.dir.IsDir then
      match readEntryYaml w.fs g.dir.Name with
      | .error err => some (.error (.readFile err))
      | .ok d =>
        match env.unmarshal d with
        | none => some (.error .unmarshal)
        | some e => some (.ok (w, entries, { g with phase := .loaded e }))
    else some (.ok (w, entries, { g with phase := .finished }))
  | .loaded e =>
    if g.dir.Name = e.GetKey then
      some (.ok (w, entries ++ [e], { g with phase := .finished }))
    else
      match osRename w.fs g.dir.Name tmpName with
      | .error err => some (.error (.renameToTmp err))
      | .ok fs1 => some (.ok ({ w with fs := fs1 }, entries, { g with phase := .holding e }))
  | .holding e =>
    some (.ok (w, entries,
      { g with phase := .allocated { e with Key := env.getUniqueKey w.fs e.GetKey } }))
  | .allocated e =>
    match osRename w.fs tmpName e.GetKey with
    | .error err => some (.error (.renameFromTmp err))
    | .ok fs2 => some (.ok ({ w with fs := fs2 }, entries, { g with phase := .moved e }))
  | .moved e =>
    match update env w.fs e with
    | .error p => some (.error p)
    | .ok fs3 =>
      some (.ok ({ fs := fs3, out := w.out ++ auditLines path g.dir.Name e.GetKey },
        entries ++ [e], { g with phase := .finished }))
  | .finished => none

/-- The process while `entryList` waits for its goroutines: the world, the
entries the collector has received, the goroutines, and the panic that ended
the process, if any. -/
structure Config where
  world : World
  entries : List Entry
  goroutines : List Goroutine
  panicked : Option Panic
deriving DecidableEq, Repr

/-- The configuration right after `entryList` has started one goroutine per
item of the listing. -/
def initial (w : World) : Config :=
  { world := w, entries := [], goroutines := (readDir w.fs).map (fun i => ⟨i, .start⟩),
    panicked := none }

/-- One step of the process: some goroutine that has not returned runs its next
statements, and either advances or panics, which ends the process. -/
inductive Step (env : Env) (path : String) : Config → Config → Prop
  | advance (w w' : World) (entries entries' : List Entry) (pre post : List Goroutine)
      (g g' : Goroutine) :
      stepGoroutine env path w entries g = some (.ok (w', entries', g')) →
      Step env path ⟨w, entries, pre ++ g :: post, none⟩ ⟨w', entries', pre ++ g' :: post, none⟩
  | panic (w : World) (entries : List Entry) (pre post : List Goroutine) (g : Goroutine)
      (p : Panic) :
      stepGoroutine env path w entries g = some (.error p) →
      Step env path ⟨w, entries, pre ++ g :: post, none⟩ ⟨w, entries, pre ++ g :: post, some p⟩

/-- The configurations some interleaving of the goroutines leads to. -/
inductive Reachable (env : Env) (path : String) (w : World) : Config → Prop
  | init : Reachable env path w (initial w)
  | step (c c' : Config) : Reachable env path w c → Step env path c c' →
      Reachable env path w c'

/-- What holds of every reachable configuration: the goroutines are for
distinct names; a goroutine that is waiting finds a directory under its name;
at most one goroutine holds the reserved name; and while one does, the reserved
name is a directory and no waiting goroutine was started for it. -/
def Inv (c : Config) : Prop :=
  (c.goroutines.map (fun g => g.dir.Name)).Nodup ∧
  (∀ g ∈ c.goroutines, g.waiting = true → isDirAt c.world.fs g.dir.Name = true) ∧
  c.goroutines.countP Goroutine.holdsTmp ≤ 1 ∧
  (1 ≤ c.goroutines.countP Goroutine.holdsTmp →
    isDirAt c.world.fs tmpName = true ∧
    ∀ g ∈ c.goroutines, g.waiting = true → g.dir.Name ≠ tmpName)

/-- What holds of every reachable configuration when the directory `b` has bad
metadata: its goroutine has not moved, the directory is as it was, and no
goroutine is about to write into it. -/
def BadInv (b : String) (d : Dir) (c : Config) : Prop :=
  (⟨⟨b, true⟩, .start⟩ : Goroutine) ∈ c.goroutines ∧
  lookup c.world.fs b = some (.dir d) ∧
  ∀ g ∈ c.goroutines, ∀ e, g.phase = .moved e → e.GetKey ≠ b

/-- What holds of every reachable configuration when every directory of the
library `w` is in step with its metadata: the library is untouched, no goroutine
has panicked, the goroutines are those of the listing, each of them has not
started, holds the entry of its directory, or has returned, and the keys the
collector has received are, in some order, the names of the directories whose
goroutine has returned. -/
def GoodInv (w : World) (c : Config) : Prop :=
  c.world = w ∧ c.panicked = none ∧
  c.goroutines.map (fun g => g.dir) = readDir w.fs ∧
  (∀ g ∈ c.goroutines, g.phase = .start ∨
    (∃ e, g.phase = .loaded e ∧ e.GetKey = g.dir.Name ∧ g.dir.IsDir = true) ∨
    g.phase = .finished) ∧
  (c.entries.map (fun e => e.Key)).Perm
    ((c.goroutines.filter Goroutine.published).map (fun g => g.dir.Name))

/-- Two directories, each out of step with the key its entry stores. -/
def libTwoMismatches : World :=
  { fs := [("doe2018", dirWithKey "doe2017"), ("roe2021", dirWithKey "roe2020")], out := [] }

/-- The configuration in which the goroutine of `doe2018` has parked its
directory under the reserved name and the goroutine of `roe2021` has read its
metadata. -/
def configFirstHolds : Config :=
  { world := { fs := [(tmpName, dirWithKey "doe2017"), ("roe2021", dirWithKey "roe2020")],
               out := [] },
    entries := [],
    goroutines := [⟨⟨"doe2018", true⟩, .holding (entryOfKey "doe2017")⟩,
      ⟨⟨"roe2021", true⟩, .loaded (entryOfKey "roe2020")⟩],
    panicked := none }

/-! ## Theorems about `clean` -/

theorem char_eq_of_toNat {c : Char} {n : Nat} (h : c.toNat = n) : c = Char.ofNat n := by
  rw [← h, Char.ofNat_toNat]

theorem mem_replaceAllRuns (c : Char) :
    ∀ (cs : List Char) (inRun : Bool), c ∈ replaceAllRuns inRun cs →
      c = ' ' ∨ rxMatch c = false := by
  intro cs
  induction cs with
  | nil => intro inRun h; simp [replaceAllRuns] at h
  | cons a as ih =>
    intro inRun h
    unfold replaceAllRuns at h
    by_cases ha : rxMatch a = true
    · rw [if_pos ha] at h
      cases inRun with
      | true => exact ih true (by simpa using h)
      | false =>
        simp only [Bool.false_eq_true, if_false, List.mem_cons] at h
        rcases h with h | h
        · exact Or.inl h
        · exact ih true h
    · rw [if_neg ha] at h
      rcases List.mem_cons.mp h with h | h
      · right; rw [h]; simpa using ha
      · exact ih false h

theorem toLower_alphabet (c : Char) (h : c = '_' ∨ (c ≠ ' ' ∧ rxMatch c = false)) :
    cleanAlphabet (Char.toLower c) := by
  rcases h with h | ⟨hsp, h⟩
  · subst h; right; right; left; decide
  · have h : (isAlnum c || isSpace c) = true := by
      cases hb : (isAlnum c || isSpace c) with
      | true => rfl
      | false => simp [rxMatch, hb] at h
    simp only [isAlnum, isSpace, Bool.or_eq_true, Bool.and_eq_true, decide_eq_true_eq] at h
    have hne : c.toNat ≠ 32 := by
      intro h32
      exact hsp (char_eq_of_toNat h32)
    by_cases hup : c.toNat ≥ 65 ∧ c.toNat ≤ 90
    · have hlow : Char.toLower c = Char.ofNat (c.toNat + 32) := by
        simp only [Char.toLower]
        rw [if_pos hup]
      rw [hlow]
      obtain ⟨h1, h2⟩ := hup
      left
      generalize c.toNat = n at h1 h2
      interval_cases n <;> decide
    · have hsame : Char.toLower c = c := by
        simp only [Char.toLower]
        rw [if_neg hup]
      rw [hsame]
      rcases h with ((⟨h1, h2⟩ | ⟨h1, h2⟩) | ⟨h1, h2⟩) | ⟨h1, h2⟩ | h32
      · right; left; exact ⟨h1, h2⟩
      · exact absurd ⟨h1, h2⟩ hup
      · left; exact ⟨h1, h2⟩
      · right; right; right
        generalize hn : c.toNat = n at h1 h2
        have hc := char_eq_of_toNat hn
        interval_cases n <;> subst hc <;> decide
      · exact absurd h32 hne

/-- C10. Every character of `clean s` is a lowercase ASCII letter, an ASCII
digit, an underscore, or an ASCII whitespace character other than the space; in
particular it is never a space, a dot, a slash, a backslash or an uppercase
ASCII letter. -/
theorem clean_output_alphabet (s : String) (c : Char) (hc : c ∈ (clean s).data) :
    cleanAlphabet c ∧ c ≠ ' ' ∧ c ≠ '.' ∧ c ≠ '/' ∧ c ≠ '\\' ∧
      ¬ (65 ≤ c.toNat ∧ c.toNat ≤ 90) := by
  have hal : cleanAlphabet c := by
    simp only [clean, replaceSpaces, List.mem_map] at hc
    obtain ⟨b, ⟨a, ha, hab⟩, hbc⟩ := hc
    rw [← hbc]
    apply toLower_alphabet
    have hmem := mem_replaceAllRuns a _ _ ha
    by_cases hsp : a = ' '
    · left; rw [← hab, if_pos hsp]
    · right
      rw [if_neg hsp] at hab
      rw [← hab]
      exact ⟨hsp, hmem.resolve_left hsp⟩
  refine ⟨hal, ?_, ?_, ?_, ?_, ?_⟩
  · rintro rfl
    revert hal; simp only [cleanAlphabet]; decide
  · rintro rfl
    revert hal; simp only [cleanAlphabet]; decide
  · rintro rfl
    revert hal; simp only [cleanAlphabet]; decide
  · rintro rfl
    revert hal; simp only [cleanAlphabet]; decide
  · rintro ⟨h1, h2⟩
    rcases hal with h | h | h | h | h | h | h | h
    · omega
    · omega
    all_goals (subst h; revert h1 h2; decide)

/-- Instance of `clean_output_alphabet` on the file name `My File.PDF`. -/
theorem clean_output_alphabet_witness :
    'm' ∈ (clean "My File.PDF").data ∧ cleanAlphabet 'm' ∧ clean "My File.PDF" = "my_file_pdf" :=
  ⟨by decide, (clean_output_alphabet "My File.PDF" 'm' (by decide)).1, by decide⟩

/-! ## The library directory: lookups after a rename or a write -/

theorem lookup_cons (n : String) (x : Node) (rest : Lib) (b : String) :
    lookup ((n, x) :: rest) b = if n = b then some x else lookup rest b := rfl

theorem lookup_relabel_of_ne (fs : Lib) (old new b : String) (h1 : b ≠ old) (h2 : b ≠ new) :
    lookup (relabel fs old new) b = lookup fs b := by
  induction fs with
  | nil => rfl
  | cons p rest ih =>
    obtain ⟨n, x⟩ := p
    simp only [relabel, List.map_cons, lookup_cons] at ih ⊢
    rw [ih]
    by_cases hn : n = old
    · subst hn
      rw [if_pos rfl, if_neg (Ne.symm h2), if_neg (Ne.symm h1)]
    · rw [if_neg hn]

theorem lookup_relabel_new (fs : Lib) (old new : String) (h : lookup fs new = none) :
    lookup (relabel fs old new) new = lookup fs old := by
  induction fs with
  | nil => rfl
  | cons p rest ih =>
    obtain ⟨n, x⟩ := p
    rw [lookup_cons] at h
    by_cases hn : n = new
    · simp [hn] at h
    · rw [if_neg hn] at h
      simp only [relabel, List.map_cons, lookup_cons] at ih ⊢
      rw [ih h]
      by_cases ho : n = old
      · rw [if_pos ho, if_pos rfl, if_pos ho]
      · rw [if_neg ho, if_neg hn, if_neg ho]

theorem lookup_relabel_old (fs : Lib) (old new : String) (h : old ≠ new) :
    lookup (relabel fs old new) old = none := by
  induction fs with
  | nil => rfl
  | cons p rest ih =>
    obtain ⟨n, x⟩ := p
    simp only [relabel, List.map_cons, lookup_cons] at ih ⊢
    rw [ih]
    by_cases ho : n = old
    · rw [if_pos ho, if_neg (Ne.symm h)]
    · rw [if_neg ho, if_neg ho]

theorem lookup_remove_of_ne (fs : Lib) (x b : String) (h : b ≠ x) :
    lookup (remove fs x) b = lookup fs b := by
  induction fs with
  | nil => rfl
  | cons p rest ih =>
    obtain ⟨n, y⟩ := p
    simp only [remove] at ih ⊢
    by_cases hn : n = x
    · subst hn
      simp only [List.filter_cons, ne_eq, not_true_eq_false, decide_False, Bool.false_eq_true,
        if_false, lookup_cons, if_neg (Ne.symm h)]
      exact ih
    · simp only [List.filter_cons, ne_eq, hn, not_false_eq_true, decide_True, if_true,
        lookup_cons]
      rw [ih]

theorem lookup_overwrite (fs : Lib) (dir b : String) (x : Node) :
    lookup (fs.map (fun p => (p.1, if p.1 = dir then x else p.2))) b =
      if b = dir then (lookup fs b).map (fun _ => x) else lookup fs b := by
  induction fs with
  | nil => simp [lookup]
  | cons p rest ih =>
    obtain ⟨n, y⟩ := p
    simp only [List.map_cons, lookup_cons, ih]
    by_cases hb : n = b
    · subst hb
      by_cases hn : n = dir
      · simp [hn]
      · simp [hn]
    · simp only [if_neg hb]

theorem lookup_of_mem (fs : Lib) (hwf : fs.WF) (n : String) (x : Node) (h : (n, x) ∈ fs) :
    lookup fs n = some x := by
  induction fs with
  | nil => simp at h
  | cons p rest ih =>
    obtain ⟨m, y⟩ := p
    simp only [Lib.WF, List.map_cons, List.nodup_cons] at hwf
    rcases List.mem_cons.mp h with h | h
    · simp only [Prod.mk.injEq] at h
      simp [lookup_cons, h.1, h.2]
    · have hm : m ≠ n := by
        rintro rfl
        exact hwf.1 (List.mem_map_of_mem Prod.fst h)
      rw [lookup_cons, if_neg hm]
      exact ih hwf.2 h

theorem mem_of_lookup (fs : Lib) (n : String) (x : Node) (h : lookup fs n = some x) :
    (n, x) ∈ fs := by
  induction fs with
  | nil => simp [lookup] at h
  | cons p rest ih =>
    obtain ⟨m, y⟩ := p
    rw [lookup_cons] at h
    by_cases hm : m = n
    · simp only [hm, if_true, Option.some.injEq] at h
      simp [hm, h]
    · rw [if_neg hm] at h
      exact List.mem_cons_of_mem _ (ih h)

theorem renameEntry_target (fs fs' : Lib) (old new : String)
    (h : renameEntry fs old new = .ok fs') (d : Dir) : lookup fs new ≠ some (.dir d) := by
  intro hd
  unfold renameEntry at h
  split at h <;> simp_all

theorem renameEntry_frame (fs fs' : Lib) (old new b : String) (d : Dir)
    (h : renameEntry fs old new = .ok fs') (hb : lookup fs b = some (.dir d)) (hne : b ≠ old) :
    lookup fs' b = some (.dir d) := by
  have hnew : b ≠ new := by
    rintro rfl
    exact renameEntry_target fs fs' old b h d hb
  unfold renameEntry at h
  split at h
  · simp at h
  · simp at h
  · simp at h
  · split at h
    · simp only [Except.ok.injEq] at h
      rw [← h]; exact hb
    · simp only [Except.ok.injEq] at h
      rw [← h, lookup_relabel_of_ne _ _ _ _ hne hnew, lookup_remove_of_ne _ _ _ hnew]
      exact hb
  · simp only [Except.ok.injEq] at h
    rw [← h, lookup_relabel_of_ne _ _ _ _ hne hnew]
    exact hb

theorem renameEntry_dir_inv (fs fs' : Lib) (old new : String) (d : Dir)
    (hold : lookup fs old = some (.dir d)) (h : renameEntry fs old new = .ok fs') :
    lookup fs new = none ∧ fs' = relabel fs old new := by
  unfold renameEntry at h
  rw [hold] at h
  split at h <;> simp_all

/-- A rename that succeeds was between two names that stay below the library
root, and is the rename of one entry of the root to the other name. -/
theorem osRename_ok (fs fs' : Lib) (old new : String) (h : osRename fs old new = .ok fs') :
    aboveRoot old = false ∧ aboveRoot new = false ∧ renameEntry fs old new = .ok fs' := by
  unfold osRename at h
  cases ho : aboveRoot old with
  | true => simp [ho] at h
  | false =>
    cases hn : aboveRoot new with
    | true =>
      simp only [ho, hn, Bool.false_eq_true, if_false, if_true] at h
      split at h <;> simp at h
    | false =>
      simp only [ho, hn, Bool.false_eq_true, if_false] at h
      exact ⟨rfl, rfl, h⟩

/-- A rename that succeeds had no directory at its target. -/
theorem osRename_target (fs fs' : Lib) (old new : String) (h : osRename fs old new = .ok fs')
    (d : Dir) : lookup fs new ≠ some (.dir d) :=
  renameEntry_target fs fs' old new (osRename_ok fs fs' old new h).2.2 d

/-- A rename that succeeds leaves every directory other than its source alone. -/
theorem osRename_frame (fs fs' : Lib) (old new b : String) (d : Dir)
    (h : osRename fs old new = .ok fs') (hb : lookup fs b = some (.dir d)) (hne : b ≠ old) :
    lookup fs' b = some (.dir d) :=
  renameEntry_frame fs fs' old new b d (osRename_ok fs fs' old new h).2.2 hb hne

/-- Renaming a directory to a name nothing bears succeeds and relabels it, when
both names stay below the library root. -/
theorem osRename_dir_free (fs : Lib) (old new : String) (d : Dir)
    (hold : lookup fs old = some (.dir d)) (hnew : lookup fs new = none)
    (ho : aboveRoot old = false) (hn : aboveRoot new = false) :
    osRename fs old new = .ok (relabel fs old new) := by
  unfold osRename renameEntry
  simp only [ho, hn, Bool.false_eq_true, if_false]
  rw [hold, hnew]

/-- A rename of a directory succeeds only onto a name nothing bears. -/
theorem osRename_dir_inv (fs fs' : Lib) (old new : String) (d : Dir)
    (hold : lookup fs old = some (.dir d)) (h : osRename fs old new = .ok fs') :
    lookup fs new = none ∧ fs' = relabel fs old new :=
  renameEntry_dir_inv fs fs' old new d hold (osRename_ok fs fs' old new h).2.2

/-- A name that is one path component stays below the library root. -/
theorem aboveRoot_of_validName (n : String) (h : validName n) : aboveRoot n = false := by
  obtain ⟨h1, h2, h3, _⟩ := h
  unfold aboveRoot
  have e1 : n ≠ "" := by
    rintro rfl; exact h1 rfl
  have e2 : n ≠ "." := by
    rintro rfl; exact h2 rfl
  have e3 : n ≠ ".." := by
    rintro rfl; exact h3 rfl
  simp [e1, e2, e3]

/-- A write of `entry.yaml` leaves every other name alone. -/
theorem writeEntryYaml_frame (fs fs' : Lib) (dir data b : String)
    (h : writeEntryYaml fs dir data = .ok fs') (hne : b ≠ dir) :
    lookup fs' b = lookup fs b := by
  unfold writeEntryYaml at h
  split at h
  · split at h
    · simp only [Except.ok.injEq] at h
      rw [← h, lookup_overwrite, if_neg hne]
    · simp at h
  · simp at h
  · simp at h

/-- The function `update` leaves every name other than the key of the entry alone. -/
theorem update_frame (env : Env) (fs fs' : Lib) (e : Entry) (b : String)
    (h : update env fs e = .ok fs') (hne : b ≠ e.GetKey) :
    lookup fs' b = lookup fs b := by
  unfold update at h
  simp only at h
  split at h
  · simp at h
  · split at h
    · rename_i fs2 hw
      simp only [Except.ok.injEq] at h
      rw [← h]
      exact writeEntryYaml_frame _ _ _ _ _ hw hne
    · simp only [Except.ok.injEq] at h
      rw [← h]

/-! ## `checkDirKey` and `entryList`: frame and loading -/

/-- A repair that completes leaves every directory other than its own alone. -/
theorem checkDirKey_frame (env : Env) (path dir b : String) (w w' : World) (e e' : Entry)
    (d : Dir) (h : checkDirKey env path dir w e = .ok (w', e')) (hne : b ≠ dir)
    (hb : lookup w.fs b = some (.dir d)) : lookup w'.fs b = some (.dir d) := by
  unfold checkDirKey at h
  split at h
  · simp only [Except.ok.injEq, Prod.mk.injEq] at h
    rw [← h.1]; exact hb
  · split at h
    · simp at h
    · rename_i fs1 h1
      simp only at h
      split at h
      · simp at h
      · rename_i fs2 h2
        split at h
        · simp at h
        · rename_i fs3 h3
          simp only [Except.ok.injEq, Prod.mk.injEq] at h
          rw [← h.1]
          have hb1 : lookup fs1 b = some (.dir d) := osRename_frame _ _ _ _ _ _ h1 hb hne
          have htmp : b ≠ tmpName := by
            rintro rfl
            exact osRename_target _ _ _ _ h1 d hb
          have hb2 : lookup fs2 b = some (.dir d) := osRename_frame _ _ _ _ _ _ h2 hb1 htmp
          have hkey : b ≠ Entry.GetKey { e with Key := env.getUniqueKey fs1 e.GetKey } := by
            intro hk
            rw [hk] at hb1
            exact osRename_target _ _ _ _ h2 d hb1
          show lookup fs3 b = some (.dir d)
          rw [update_frame env fs2 fs3 _ b h3 hkey]
          exact hb2

/-- A goroutine that completes leaves every directory other than its own alone. -/
theorem worker_frame (env : Env) (path b : String) (acc acc' : World × List Entry)
    (i : FileInfo) (d : Dir) (h : worker env path acc i = .ok acc') (hne : b ≠ i.Name)
    (hb : lookup acc.1.fs b = some (.dir d)) : lookup acc'.1.fs b = some (.dir d) := by
  unfold worker at h
  split at h
  · split at h
    · simp at h
    · split at h
      · simp at h
      · split at h
        · simp at h
        · rename_i w' e' hc
          simp only [Except.ok.injEq] at h
          rw [← h]
          exact checkDirKey_frame env path _ b _ _ _ _ d hc hne hb
  · simp only [Except.ok.injEq] at h
    rw [← h]; exact hb

theorem worker_bad (env : Env) (path b : String) (acc : World × List Entry) (d : Dir)
    (hb : lookup acc.1.fs b = some (.dir d)) (hbad : badDir env d) :
    ∃ p, worker env path acc ⟨b, true⟩ = .error p := by
  have hread : (∃ err, readEntryYaml acc.1.fs b = .error err) ∨
      ∃ data, readEntryYaml acc.1.fs b = .ok data ∧ env.unmarshal data = none := by
    unfold readEntryYaml
    simp only [hb]
    rcases hbad with h | ⟨f, hf, h | h⟩
    · left; rw [h]; exact ⟨_, rfl⟩
    · left; rw [hf]; simp only; rw [h]; exact ⟨_, rfl⟩
    · rw [hf]; simp only
      cases hr : f.readable with
      | false => left; exact ⟨_, rfl⟩
      | true => right; exact ⟨_, rfl, h⟩
  unfold worker
  rw [if_pos rfl]
  rcases hread with ⟨err, h⟩ | ⟨data, h, hu⟩
  · simp only [h]; exact ⟨_, rfl⟩
  · simp only [h, hu]; exact ⟨_, rfl⟩

theorem runWorkers_bad (env : Env) (path b : String) (d : Dir) (hbad : badDir env d) :
    ∀ (ds : List FileInfo) (acc : World × List Entry), (ds.map (fun i => i.Name)).Nodup →
      (∃ i ∈ ds, i.Name = b ∧ i.IsDir = true) → lookup acc.1.fs b = some (.dir d) →
      ∃ p, runWorkers env path acc ds = .error p := by
  intro ds
  induction ds with
  | nil => intro acc _ h; simp at h
  | cons x rest ih =>
    intro acc hnd hex hb
    simp only [List.map_cons, List.nodup_cons] at hnd
    unfold runWorkers
    by_cases hx : x.Name = b
    · have hxd : x.IsDir = true := by
        obtain ⟨i, hi, hin, hid⟩ := hex
        rcases List.mem_cons.mp hi with rfl | hi
        · exact hid
        · exfalso
          apply hnd.1
          rw [hx, ← hin]
          exact List.mem_map_of_mem (fun i => i.Name) hi
      have hxe : x = ⟨b, true⟩ := by
        cases x; simp_all
      obtain ⟨p, hp⟩ := worker_bad env path b acc d hb hbad
      rw [hxe, hp]
      exact ⟨p, rfl⟩
    · cases hw : worker env path acc x with
      | error p => exact ⟨p, rfl⟩
      | ok acc' =>
        simp only
        apply ih acc' hnd.2
        · obtain ⟨i, hi, hin, hid⟩ := hex
          rcases List.mem_cons.mp hi with rfl | hi
          · exact absurd hin hx
          · exact ⟨i, hi, hin, hid⟩
        · exact worker_frame env path b acc acc' x d hw (Ne.symm hx) hb

theorem readDir_names (fs : Lib) : (readDir fs).map (fun i => i.Name) = fs.map Prod.fst := by
  simp [readDir, Function.comp_def]

theorem mem_readDir_dir (fs : Lib) (n : String) (d : Dir) (h : (n, Node.dir d) ∈ fs) :
    (⟨n, true⟩ : FileInfo) ∈ readDir fs := by
  simp only [readDir, List.mem_map]
  exact ⟨(n, Node.dir d), h, rfl⟩

theorem mem_readDir_inv (fs : Lib) (i : FileInfo) (h : i ∈ readDir fs) (hd : i.IsDir = true) :
    ∃ d, (i.Name, Node.dir d) ∈ fs := by
  simp only [readDir, List.mem_map] at h
  obtain ⟨⟨n, x⟩, hmem, rfl⟩ := h
  cases x with
  | file f => simp at hd
  | dir d => exact ⟨d, hmem⟩

theorem checkDirKey_of_eq (env : Env) (path d : String) (w : World) (e : Entry)
    (h : d = e.GetKey) : checkDirKey env path d w e = .ok (w, e) := by
  unfold checkDirKey
  rw [if_pos h]

/-- C8. When the directory name equals the key of the entry, `checkDirKey`
returns at once: the library and the printed lines are as before, nothing is
written, and the entry, its `Key` included, is as before. -/
theorem checkDirKey_noop_on_match (env : Env) (path d : String) (w : World) (e : Entry)
    (h : d = e.GetKey) :
    ∃ w' e', checkDirKey env path d w e = .ok (w', e') ∧ w'.fs = w.fs ∧ w'.out = w.out ∧
      e'.Key = e.Key ∧ e' = e :=
  ⟨w, e, checkDirKey_of_eq env path d w e h, rfl, rfl, rfl, rfl⟩

theorem runWorkers_matching (env : Env) (path : String) (w : World)
    (hgood : ∀ name d, lookup w.fs name = some (Node.dir d) →
      ∃ f e, d.entryYaml = some f ∧ f.readable = true ∧ env.unmarshal f.data = some e ∧
        e.GetKey = name) :
    ∀ (ds : List FileInfo) (acc : List Entry),
      (∀ i ∈ ds, i.IsDir = true → ∃ d, lookup w.fs i.Name = some (Node.dir d)) →
      ∃ es, runWorkers env path (w, acc) ds = .ok (w, acc ++ es) ∧
        es.map (fun e => e.Key) = (ds.filter (fun i => i.IsDir)).map (fun i => i.Name) := by
  intro ds
  induction ds with
  | nil => intro acc _; exact ⟨[], by simp [runWorkers], rfl⟩
  | cons x rest ih =>
    intro acc hds
    have hrest : ∀ i ∈ rest, i.IsDir = true → ∃ d, lookup w.fs i.Name = some (Node.dir d) :=
      fun i hi => hds i (List.mem_cons_of_mem _ hi)
    unfold runWorkers
    cases hxd : x.IsDir with
    | false =>
      obtain ⟨es, hes, hkeys⟩ := ih acc hrest
      refine ⟨es, ?_, ?_⟩
      · simp only [worker, hxd, Bool.false_eq_true, if_false]
        exact hes
      · simp only [List.filter_cons, hxd, Bool.false_eq_true, if_false]
        exact hkeys
    | true =>
      obtain ⟨d, hd⟩ := hds x (List.mem_cons_self _ _) hxd
      obtain ⟨f, e, hf, hr, hu, hk⟩ := hgood x.Name d hd
      have hw : worker env path (w, acc) x = .ok (w, acc ++ [e]) := by
        simp only [worker, hxd, if_true, readEntryYaml, hd, hf, hr, hu,
          checkDirKey_of_eq env path x.Name w e hk.symm]
      obtain ⟨es, hes, hkeys⟩ := ih (acc ++ [e]) hrest
      refine ⟨e :: es, ?_, ?_⟩
      · rw [hw]
        simp only
        rw [hes]
        simp
      · simp only [List.filter_cons, hxd, if_true, List.map_cons, hkeys]
        have : e.Key = x.Name := hk
        rw [this]

/-! ## The repair of `checkDirKey` -/

theorem afterWrite_others (d : Dir) (data : String) :
    (afterWrite d data).others = d.others ∧ (afterWrite d data).canCreate = d.canCreate := by
  unfold afterWrite writeYamlIn
  cases h : d.entryYaml with
  | none =>
    cases hc : d.canCreate with
    | false => simp [hc]
    | true => simp [hc]
  | some f =>
    cases hw : f.writable with
    | false => simp [hw]
    | true => simp [hw]

/-- The directory after a write that is permitted: `entry.yaml` holds the new
bytes, everything else is as before. -/
theorem afterWrite_eq (d : Dir) (f : File) (y : String) (hf : d.entryYaml = some f)
    (hw : f.writable = true) :
    afterWrite d y = { d with entryYaml := some { f with data := y } } := by
  unfold afterWrite writeYamlIn
  simp [hf, hw]

theorem update_at_dir (env : Env) (fs : Lib) (e : Entry) (d : Dir) (y : String)
    (hd : lookup fs e.GetKey = some (.dir d)) (hm : env.marshal e = some y) :
    ∃ fs', update env fs e = .ok fs' ∧ lookup fs' e.GetKey = some (.dir (afterWrite d y)) ∧
      ∀ b, b ≠ e.GetKey → lookup fs' b = lookup fs b := by
  unfold update
  simp only [hm, writeEntryYaml, hd, afterWrite]
  cases hw : writeYamlIn d y with
  | error err => exact ⟨fs, rfl, hd, fun _ _ => rfl⟩
  | ok d' =>
    refine ⟨_, rfl, ?_, ?_⟩
    · rw [lookup_overwrite, if_pos rfl, hd]; rfl
    · intro b hb
      rw [lookup_overwrite, if_neg hb]

/-- The repair, when the reserved name is free, the allocated key is borne by
nothing, both names stay below the library root and the entry can be
serialised: it completes, prints its two lines,
leaves the directory under the allocated key with its content (the metadata
file rewritten if the write went through), frees the reserved name and the old
name, and touches nothing else. -/
theorem checkDirKey_repair (env : Env) (path dir k y : String) (w : World) (e : Entry)
    (d : Dir) (hne : dir ≠ e.GetKey) (hdir : lookup w.fs dir = some (.dir d))
    (htmp : lookup w.fs tmpName = none)
    (hk : k = env.getUniqueKey (relabel w.fs dir tmpName) e.GetKey)
    (hfree : lookup (relabel w.fs dir tmpName) k = none)
    (hm : env.marshal { e with Key := k } = some y)
    (hdv : aboveRoot dir = false) (hkv : aboveRoot k = false) :
    ∃ w', checkDirKey env path dir w e = .ok (w', { e with Key := k }) ∧
      w'.out = w.out ++ auditLines path dir k ∧
      lookup w'.fs k = some (.dir (afterWrite d y)) ∧
      lookup w'.fs tmpName = none ∧
      (k ≠ dir → lookup w'.fs dir = none) ∧
      ∀ b, b ≠ dir → b ≠ k → b ≠ tmpName → lookup w'.fs b = lookup w.fs b := by
  have hdt : dir ≠ tmpName := by
    rintro rfl
    rw [htmp] at hdir; simp at hdir
  have h1 : osRename w.fs dir tmpName = .ok (relabel w.fs dir tmpName) :=
    osRename_dir_free _ _ _ d hdir htmp hdv (by decide)
  have htmp1 : lookup (relabel w.fs dir tmpName) tmpName = some (.dir d) := by
    rw [lookup_relabel_new _ _ _ htmp]; exact hdir
  have hkt : k ≠ tmpName := by
    rintro rfl
    rw [htmp1] at hfree; simp at hfree
  have h2 : osRename (relabel w.fs dir tmpName) tmpName k =
      .ok (relabel (relabel w.fs dir tmpName) tmpName k) :=
    osRename_dir_free _ _ _ d htmp1 hfree (by decide) hkv
  have hk2 : lookup (relabel (relabel w.fs dir tmpName) tmpName k) k = some (.dir d) := by
    rw [lookup_relabel_new _ _ _ hfree]; exact htmp1
  obtain ⟨fs3, h3, hk3, hfr3⟩ :=
    update_at_dir env (relabel (relabel w.fs dir tmpName) tmpName k) { e with Key := k } d y
      hk2 hm
  refine ⟨{ fs := fs3, out := w.out ++ auditLines path dir k }, ?_, rfl, hk3, ?_, ?_, ?_⟩
  · unfold checkDirKey
    rw [if_neg hne, h1]
    simp only
    rw [← hk]
    have hg : Entry.GetKey { e with Key := k } = k := rfl
    rw [hg, h2]
    simp only
    rw [h3]
  · show lookup fs3 tmpName = none
    rw [hfr3 tmpName (Ne.symm hkt)]
    exact lookup_relabel_old _ _ _ (Ne.symm hkt)
  · intro hkd
    show lookup fs3 dir = none
    rw [hfr3 dir (Ne.symm hkd), lookup_relabel_of_ne _ _ _ _ hdt (Ne.symm hkd)]
    exact lookup_relabel_old _ _ _ hdt
  · intro b hb1 hb2 hb3
    show lookup fs3 b = lookup w.fs b
    rw [hfr3 b hb2, lookup_relabel_of_ne _ _ _ _ hb3 hb2, lookup_relabel_of_ne _ _ _ _ hb1 hb3]

/-! ## Names stay unique -/

theorem lookup_eq_none_iff (fs : Lib) (b : String) :
    lookup fs b = none ↔ b ∉ fs.map Prod.fst := by
  induction fs with
  | nil => simp [lookup]
  | cons p rest ih =>
    obtain ⟨n, x⟩ := p
    rw [lookup_cons]
    by_cases hn : n = b
    · simp [hn]
    · rw [if_neg hn, ih]
      simp only [List.map_cons, List.mem_cons, not_or]
      exact ⟨fun h => ⟨Ne.symm hn, h⟩, fun h => h.2⟩

theorem relabel_names (fs : Lib) (old new : String) :
    (relabel fs old new).map Prod.fst = (fs.map Prod.fst).map (fun n => if n = old then new else n) := by
  simp [relabel, Function.comp_def]

theorem relabel_wf (fs : Lib) (old new : String) (hwf : fs.WF) (hnew : lookup fs new = none) :
    (relabel fs old new).WF := by
  unfold Lib.WF at hwf ⊢
  rw [relabel_names]
  rw [lookup_eq_none_iff] at hnew
  apply List.Nodup.map_on _ hwf
  intro x hx y hy hxy
  by_cases h1 : x = old
  · by_cases h2 : y = old
    · rw [h1, h2]
    · rw [if_pos h1, if_neg h2] at hxy
      rw [← hxy] at hy
      exact absurd hy hnew
  · by_cases h2 : y = old
    · rw [if_neg h1, if_pos h2] at hxy
      rw [hxy] at hx
      exact absurd hx hnew
    · rw [if_neg h1, if_neg h2] at hxy
      exact hxy

theorem remove_wf (fs : Lib) (x : String) (hwf : fs.WF) : (remove fs x).WF := by
  unfold Lib.WF at hwf ⊢
  unfold remove
  exact (List.Nodup.sublist (List.Sublist.map _ (List.filter_sublist _)) hwf)

theorem lookup_remove_self (fs : Lib) (x : String) : lookup (remove fs x) x = none := by
  rw [lookup_eq_none_iff]
  simp [remove]

/-- A rename keeps the names of the library distinct. -/
theorem osRename_wf (fs fs' : Lib) (old new : String) (hwf : fs.WF)
    (h : osRename fs old new = .ok fs') : fs'.WF := by
  have h := (osRename_ok fs fs' old new h).2.2
  unfold renameEntry at h
  split at h
  · simp at h
  · simp at h
  · simp at h
  · split at h
    · simp only [Except.ok.injEq] at h
      rw [← h]; exact hwf
    · simp only [Except.ok.injEq] at h
      rw [← h]
      exact relabel_wf _ _ _ (remove_wf _ _ hwf) (lookup_remove_self _ _)
  · rename_i hnew
    simp only [Except.ok.injEq] at h
    rw [← h]
    exact relabel_wf _ _ _ hwf hnew

/-- The function `update` keeps the names of the library as they are. -/
theorem update_names (env : Env) (fs fs' : Lib) (e : Entry) (h : update env fs e = .ok fs') :
    fs'.map Prod.fst = fs.map Prod.fst := by
  unfold update at h
  simp only at h
  split at h
  · simp at h
  · split at h
    · rename_i fs2 hw
      simp only [Except.ok.injEq] at h
      subst h
      unfold writeEntryYaml at hw
      split at hw
      · split at hw
        · simp only [Except.ok.injEq] at hw
          subst hw
          simp [Function.comp_def]
        · simp at hw
      · simp at hw
      · simp at hw
    · simp only [Except.ok.injEq] at h
      rw [h]

/-- A call of `checkDirKey` that completes keeps the names of the library distinct. -/
theorem checkDirKey_wf (env : Env) (path dir : String) (w w' : World) (e e' : Entry)
    (hwf : w.fs.WF) (h : checkDirKey env path dir w e = .ok (w', e')) : w'.fs.WF := by
  unfold checkDirKey at h
  split at h
  · simp only [Except.ok.injEq, Prod.mk.injEq] at h
    rw [← h.1]; exact hwf
  · split at h
    · simp at h
    · rename_i fs1 h1
      simp only at h
      split at h
      · simp at h
      · rename_i fs2 h2
        split at h
        · simp at h
        · rename_i fs3 h3
          simp only [Except.ok.injEq, Prod.mk.injEq] at h
          rw [← h.1]
          show Lib.WF fs3
          unfold Lib.WF
          rw [update_names env fs2 fs3 _ h3]
          exact osRename_wf _ _ _ _ (osRename_wf _ _ _ _ hwf h1) h2

/-- What a repair that completes leaves behind. The directory `dir` is out of
step with the key of the entry and `checkDirKey` completes: then the reserved
name was free, the allocator returned a name nothing bore, both names stay
below the library root, the entry could be serialised, the entry carries the allocated key, and the directory sits under
that key with its content, its `entry.yaml` holding the serialised entry if the
write went through and left as it was if the write failed. -/
theorem checkDirKey_complete (env : Env) (path dir : String) (w w' : World) (e e' : Entry)
    (d : Dir) (hne : dir ≠ e.GetKey) (hdir : lookup w.fs dir = some (.dir d))
    (h : checkDirKey env path dir w e = .ok (w', e')) :
    lookup w.fs tmpName = none ∧
    e' = { e with Key := env.getUniqueKey (relabel w.fs dir tmpName) e.GetKey } ∧
    lookup (relabel w.fs dir tmpName) e'.Key = none ∧
    aboveRoot dir = false ∧ aboveRoot e'.Key = false ∧
    ∃ y, env.marshal e' = some y ∧ lookup w'.fs e'.Key = some (.dir (afterWrite d y)) := by
  have hinv : ∃ fs1 fs2 fs3, osRename w.fs dir tmpName = .ok fs1 ∧
      osRename fs1 tmpName (env.getUniqueKey fs1 e.GetKey) = .ok fs2 ∧
      update env fs2 { e with Key := env.getUniqueKey fs1 e.GetKey } = .ok fs3 ∧
      e' = { e with Key := env.getUniqueKey fs1 e.GetKey } := by
    unfold checkDirKey at h
    rw [if_neg hne] at h
    split at h
    · simp at h
    · rename_i fs1 h1
      simp only at h
      split at h
      · simp at h
      · rename_i fs2 h2
        split at h
        · simp at h
        · rename_i fs3 h3
          simp only [Except.ok.injEq, Prod.mk.injEq] at h
          exact ⟨fs1, fs2, fs3, h1, h2, h3, h.2.symm⟩
  obtain ⟨fs1, fs2, fs3, h1, h2, h3, he'⟩ := hinv
  obtain ⟨htmp, rfl⟩ := osRename_dir_inv _ _ _ _ d hdir h1
  have htmp1 : lookup (relabel w.fs dir tmpName) tmpName = some (.dir d) := by
    rw [lookup_relabel_new _ _ _ htmp]; exact hdir
  obtain ⟨hfree, _⟩ := osRename_dir_inv _ _ _ _ d htmp1 h2
  have hm : ∃ y, env.marshal e' = some y := by
    cases hmm : env.marshal e' with
    | some y => exact ⟨y, rfl⟩
    | none =>
      rw [he'] at hmm
      unfold update at h3
      simp only [hmm] at h3
      simp at h3
  obtain ⟨y, hy⟩ := hm
  refine ⟨htmp, he', by rw [he']; exact hfree, (osRename_ok _ _ _ _ h1).1,
    by rw [he']; exact (osRename_ok _ _ _ _ h2).2.1, y, hy, ?_⟩
  obtain ⟨w2, hc, _, hk, _⟩ := checkDirKey_repair env path dir _ y w e d hne hdir htmp rfl hfree
    (by rw [← he']; exact hy) (osRename_ok _ _ _ _ h1).1 (osRename_ok _ _ _ _ h2).2.1
  rw [h] at hc
  simp only [Except.ok.injEq, Prod.mk.injEq] at hc
  rw [hc.1, he']
  exact hk

/-! ## The suffixing allocator -/

theorem countP_length_succ_le (fs : Lib) (L : Nat) :
    fs.countP (fun p => decide (L + 1 ≤ p.1.length)) ≤
      fs.countP (fun p => decide (L ≤ p.1.length)) := by
  induction fs with
  | nil => simp
  | cons p rest ih =>
    simp only [List.countP_cons]
    by_cases h : L + 1 ≤ p.1.length
    · have h' : L ≤ p.1.length := by omega
      simp only [h, h', decide_True, if_true]
      omega
    · simp only [h, decide_False, Bool.false_eq_true, if_false]
      omega

theorem countP_length_succ_lt (fs : Lib) (key : String) (x : Node)
    (h : lookup fs key = some x) :
    fs.countP (fun p => decide (key.length + 1 ≤ p.1.length)) <
      fs.countP (fun p => decide (key.length ≤ p.1.length)) := by
  induction fs with
  | nil => simp [lookup] at h
  | cons p rest ih =>
    obtain ⟨n, y⟩ := p
    rw [lookup_cons] at h
    simp only [List.countP_cons]
    by_cases hn : n = key
    · subst hn
      have := countP_length_succ_le rest n.length
      simp only [Nat.add_one_le_iff, lt_self_iff_false, decide_False, Bool.false_eq_true,
        if_false, le_refl, decide_True, if_true]
      simp only [Nat.add_one_le_iff] at this
      omega
    · rw [if_neg hn] at h
      have := ih h
      by_cases h1 : key.length + 1 ≤ n.length
      · have h2 : key.length ≤ n.length := by omega
        simp only [h1, h2, decide_True, if_true]
        omega
      · simp only [h1, decide_False, Bool.false_eq_true, if_false]
        omega

theorem suffixSearch_fresh (fs : Lib) :
    ∀ (fuel : Nat) (key : String),
      fs.countP (fun p => decide (key.length ≤ p.1.length)) < fuel →
      lookup fs (suffixSearch fs fuel key) = none := by
  intro fuel
  induction fuel with
  | zero => intro key h; omega
  | succ fuel ih =>
    intro key h
    unfold suffixSearch
    cases hl : lookup fs key with
    | none => simp only [Option.isSome_none, Bool.false_eq_true, if_false]; exact hl
    | some x =>
      simp only [Option.isSome_some, if_true]
      apply ih
      have hlen : (key ++ "a").length = key.length + 1 := by
        rw [String.length_append]; rfl
      rw [hlen]
      have := countP_length_succ_lt fs key x hl
      omega

/-- The suffixing allocator returns a name that nothing in the library bears. -/
theorem lineEnv_fresh : lineEnv.Fresh := by
  intro fs key
  apply suffixSearch_fresh
  have := List.countP_le_length (fun p : String × Node => decide (key.length ≤ p.1.length))
    (l := fs)
  omega

/-- The suffixing allocator hands back a key that nothing bears. -/
theorem lineEnv_keepsFree : lineEnv.KeepsFree := by
  intro fs key h
  show suffixSearch fs (fs.length + 1) key = key
  unfold suffixSearch
  rw [h]
  rfl

/-- The one-line codec gives back what it has serialised. -/
theorem lineEnv_roundTrip : lineEnv.RoundTrip := by
  intro e y hm
  obtain ⟨key, fields⟩ := e
  simp only [lineEnv, lineMarshal] at hm
  split at hm
  · rename_i hf
    simp only [Option.some.injEq] at hm
    subst hm
    subst hf
    show lineUnmarshal ("key: " ++ key) = some ⟨key, []⟩
    unfold lineUnmarshal
    have hd : ("key: " ++ key).data = 'k' :: 'e' :: 'y' :: ':' :: ' ' :: key.data := by
      rw [String.data_append]; rfl
    rw [hd]
    rfl
  · simp at hm

theorem validName_append_a (key : String) (h : validName key) : validName (key ++ "a") := by
  obtain ⟨h1, h2, h3, h4⟩ := h
  have hd : (key ++ "a").data = key.data ++ ['a'] := by
    rw [String.data_append]
  unfold validName
  rw [hd]
  refine ⟨by simp, ?_, ?_, ?_⟩
  · intro hc
    have := congrArg List.reverse hc
    simp at this
  · intro hc
    have := congrArg List.reverse hc
    simp at this
  · intro hc
    rcases List.mem_append.mp hc with hc | hc
    · exact h4 hc
    · simp at hc

theorem suffixSearch_valid (fs : Lib) :
    ∀ (fuel : Nat) (key : String), validName key → validName (suffixSearch fs fuel key) := by
  intro fuel
  induction fuel with
  | zero => intro key h; exact h
  | succ fuel ih =>
    intro key h
    unfold suffixSearch
    split
    · exact ih _ (validName_append_a key h)
    · exact h

/-- The suffixing allocator returns one path component when asked for one. -/
theorem lineEnv_valid (key : String) (h : validName key) (fs : Lib) :
    validName (lineEnv.getUniqueKey fs key) :=
  suffixSearch_valid fs _ key h

/-! ## Two directories with the same key -/

/-- C3 (amended). Two distinct directories `d1` and `d2` hold, each in a
writable `entry.yaml`, entries that have the same key `k`, different from both
names. Nothing bears the reserved name, the allocator returns a name that is
one path component and that nothing bears at the time of each call, and the
entries can be serialised under any key. Then repairing `d1` and then `d2`
completes and leaves two directories under distinct names, each being the
directory it was with its `entry.yaml` holding its own entry serialised under
its new key; every other name of the library keeps what it referred to and is
neither of the two final names; none of the directories is merged into or
written over another. -/
theorem checkDirKey_collision (env : Env) (path d1 d2 k : String) (w : World)
    (e1 e2 : Entry) (x1 x2 : Dir) (f1 f2 : File) (hd : d1 ≠ d2)
    (h1 : lookup w.fs d1 = some (.dir x1)) (h2 : lookup w.fs d2 = some (.dir x2))
    (hy1 : x1.entryYaml = some f1) (hy2 : x2.entryYaml = some f2)
    (hu1 : env.unmarshal f1.data = some e1) (hu2 : env.unmarshal f2.data = some e2)
    (hw1 : f1.writable = true) (hw2 : f2.writable = true)
    (hk1 : e1.GetKey = k) (hk2 : e2.GetKey = k) (hkd1 : k ≠ d1) (hkd2 : k ≠ d2)
    (hv1 : validName d1) (hv2 : validName d2)
    (htmp : lookup w.fs tmpName = none) (hfresh : env.Fresh)
    (hvalid : ∀ fs, validName (env.getUniqueKey fs k))
    (hm1 : ∀ n, env.marshal { e1 with Key := n } ≠ none)
    (hm2 : ∀ n, env.marshal { e2 with Key := n } ≠ none) :
    ∃ w1 w2 n1 n2 s1 s2,
      checkDirKey env path d1 w e1 = .ok (w1, { e1 with Key := n1 }) ∧
      checkDirKey env path d2 w1 e2 = .ok (w2, { e2 with Key := n2 }) ∧
      n1 ≠ n2 ∧ validName n1 ∧ validName n2 ∧
      env.marshal { e1 with Key := n1 } = some s1 ∧
      env.marshal { e2 with Key := n2 } = some s2 ∧
      lookup w2.fs n1 = some (.dir { x1 with entryYaml := some { f1 with data := s1 } }) ∧
      lookup w2.fs n2 = some (.dir { x2 with entryYaml := some { f2 with data := s2 } }) ∧
      lookup w2.fs tmpName = none ∧
      ∀ b, b ≠ d1 → b ≠ d2 → lookup w.fs b ≠ none →
        b ≠ n1 ∧ b ≠ n2 ∧ lookup w2.fs b = lookup w.fs b := by
  have _ := hu1
  have _ := hu2
  have hd1t : d1 ≠ tmpName := by
    rintro rfl; rw [htmp] at h1; simp at h1
  have hd2t : d2 ≠ tmpName := by
    rintro rfl; rw [htmp] at h2; simp at h2
  -- first repair
  obtain ⟨y1, hy1'⟩ := Option.ne_none_iff_exists'.mp
    (hm1 (env.getUniqueKey (relabel w.fs d1 tmpName) e1.GetKey))
  have hf1 := hfresh (relabel w.fs d1 tmpName) e1.GetKey
  have hval1 : validName (env.getUniqueKey (relabel w.fs d1 tmpName) e1.GetKey) := by
    rw [hk1]; exact hvalid _
  obtain ⟨w1, hc1, _, hn1, ht1, _, hfr1⟩ :=
    checkDirKey_repair env path d1 _ y1 w e1 x1 (by rw [hk1]; exact Ne.symm hkd1) h1 htmp rfl
      hf1 hy1' (aboveRoot_of_validName d1 hv1) (aboveRoot_of_validName _ hval1)
  generalize env.getUniqueKey (relabel w.fs d1 tmpName) e1.GetKey = n1
    at hc1 hn1 hfr1 hf1 hy1' hval1
  have hn1t : n1 ≠ tmpName := by
    rintro rfl
    rw [lookup_relabel_new _ _ _ htmp, h1] at hf1; simp at hf1
  have hn1d2 : n1 ≠ d2 := by
    rintro rfl
    rw [lookup_relabel_of_ne _ _ _ _ (Ne.symm hd) hd2t, h2] at hf1; simp at hf1
  have h2' : lookup w1.fs d2 = some (.dir x2) := by
    rw [hfr1 d2 (Ne.symm hd) (Ne.symm hn1d2) hd2t]; exact h2
  -- second repair
  obtain ⟨y2, hy2'⟩ := Option.ne_none_iff_exists'.mp
    (hm2 (env.getUniqueKey (relabel w1.fs d2 tmpName) e2.GetKey))
  have hf2 := hfresh (relabel w1.fs d2 tmpName) e2.GetKey
  have hval2 : validName (env.getUniqueKey (relabel w1.fs d2 tmpName) e2.GetKey) := by
    rw [hk2]; exact hvalid _
  obtain ⟨w2, hc2, _, hn2, ht2, _, hfr2⟩ :=
    checkDirKey_repair env path d2 _ y2 w1 e2 x2 (by rw [hk2]; exact Ne.symm hkd2) h2' ht1 rfl
      hf2 hy2' (aboveRoot_of_validName d2 hv2) (aboveRoot_of_validName _ hval2)
  generalize env.getUniqueKey (relabel w1.fs d2 tmpName) e2.GetKey = n2
    at hc2 hn2 hfr2 hf2 hy2' hval2
  have hn12 : n1 ≠ n2 := by
    rintro rfl
    rw [lookup_relabel_of_ne _ _ _ _ hn1d2 hn1t, hn1] at hf2; simp at hf2
  refine ⟨w1, w2, n1, n2, y1, y2, hc1, hc2, hn12, hval1, hval2, hy1', hy2', ?_, ?_, ht2, ?_⟩
  · rw [hfr2 n1 hn1d2 hn12 hn1t, hn1, afterWrite_eq x1 f1 y1 hy1 hw1]
  · rw [hn2, afterWrite_eq x2 f2 y2 hy2 hw2]
  · intro b hb1 hb2 hb
    have hbt : b ≠ tmpName := by
      rintro rfl; exact hb htmp
    have hbn1 : b ≠ n1 := by
      rintro rfl
      rw [lookup_relabel_of_ne _ _ _ _ hb1 hbt] at hf1; exact hb hf1
    have hb1' : lookup w1.fs b = lookup w.fs b := hfr1 b hb1 hbn1 hbt
    have hbn2 : b ≠ n2 := by
      rintro rfl
      rw [lookup_relabel_of_ne _ _ _ _ hb2 hbt, hb1'] at hf2; exact hb hf2
    exact ⟨hbn1, hbn2, by rw [hfr2 b hb2 hbn2 hbt, hb1']⟩

/-! ## Instances -/

/-- Instance of `checkDirKey_collision` on the library `libTwoPapers`: the two
papers end under `smith2020` and `smith2020a`, each with its own files. -/
theorem checkDirKey_collision_witness :
    ∃ w1 w2 n1 n2 s1 s2,
      checkDirKey lineEnv "/lib" "draft" libTwoPapers (entryOfKey "smith2020") =
        .ok (w1, { entryOfKey "smith2020" with Key := n1 }) ∧
      checkDirKey lineEnv "/lib" "inbox" w1 (entryOfKey "smith2020") =
        .ok (w2, { entryOfKey "smith2020" with Key := n2 }) ∧
      n1 ≠ n2 ∧ validName n1 ∧ validName n2 ∧
      lineEnv.marshal { entryOfKey "smith2020" with Key := n1 } = some s1 ∧
      lineEnv.marshal { entryOfKey "smith2020" with Key := n2 } = some s2 ∧
      lookup w2.fs n1 = some (.dir { smithPaper with
        entryYaml := some { (⟨"key: smith2020", true, true⟩ : File) with data := s1 } }) ∧
      lookup w2.fs n2 = some (.dir { smithTalk with
        entryYaml := some { (⟨"key: smith2020", true, true⟩ : File) with data := s2 } }) ∧
      lookup w2.fs tmpName = none ∧
      ∀ b, b ≠ "draft" → b ≠ "inbox" → lookup libTwoPapers.fs b ≠ none →
        b ≠ n1 ∧ b ≠ n2 ∧ lookup w2.fs b = lookup libTwoPapers.fs b :=
  checkDirKey_collision lineEnv "/lib" "draft" "inbox" "smith2020" libTwoPapers
    (entryOfKey "smith2020") (entryOfKey "smith2020") smithPaper smithTalk
    ⟨"key: smith2020", true, true⟩ ⟨"key: smith2020", true, true⟩
    (by decide) (by decide) (by decide) rfl rfl (by decide) (by decide) rfl rfl rfl rfl
    (by decide) (by decide) (by unfold validName; decide) (by unfold validName; decide)
    (by decide) lineEnv_fresh
    (fun fs => lineEnv_valid "smith2020" (by unfold validName; decide) fs)
    (by intro n; simp [lineEnv, lineMarshal, entryOfKey])
    (by intro n; simp [lineEnv, lineMarshal, entryOfKey])

/-- The repairs of `libTwoPapers`, computed: `draft` becomes `smith2020`,
`inbox` becomes `smith2020a`, each keeps its files and holds its entry under
its new key, and the third entry and the plain file are untouched. -/
theorem checkDirKey_collision_computed :
    ∃ w1,
      checkDirKey lineEnv "/lib" "draft" libTwoPapers (entryOfKey "smith2020") =
        .ok (w1, entryOfKey "smith2020") ∧
      checkDirKey lineEnv "/lib" "inbox" w1 (entryOfKey "smith2020") =
        .ok (⟨[("smith2020", .dir { smithPaper with
                  entryYaml := some ⟨"key: smith2020", true, true⟩ }),
               ("doe2017", dirWithKey "doe2017"),
               ("smith2020a", .dir { smithTalk with
                  entryYaml := some ⟨"key: smith2020a", true, true⟩ }),
               ("README", .file ⟨"my library", true, true⟩)],
              ["Renamed:", "  /lib/draft > /lib/smith2020", "Renamed:",
                "  /lib/inbox > /lib/smith2020a"]⟩, entryOfKey "smith2020a") :=
  ⟨⟨[("smith2020", .dir smithPaper), ("doe2017", dirWithKey "doe2017"),
      ("inbox", .dir smithTalk), ("README", .file ⟨"my library", true, true⟩)],
      ["Renamed:", "  /lib/draft > /lib/smith2020"]⟩, by decide, by decide⟩

/-- C3 (as stated) fails twice. With a directory `.tmp.scholar` in the library
the repair of the first of two directories that share the key `smith2020`
panics at its first rename. And in `libCollision`, with the suffixing allocator
returning at each call a name nothing bears, both repairs complete and the
second directory, `zz`, ends under `smith2020a`, the name the first directory
bore before loading. -/
theorem checkDirKey_collision_counterexample :
    (lookup libStaleTmp.fs "jones2019" = some (dirWithKey "smith2020") ∧
      lookup libStaleTmp.fs "zz" = some (dirWithKey "smith2020") ∧
      checkDirKey lineEnv "/lib" "jones2019" libStaleTmp (entryOfKey "smith2020") =
        .error (.renameToTmp .EEXIST)) ∧
    (lookup libCollision.fs "smith2020a" = some (dirWithKey "smith2020") ∧
      lookup libCollision.fs "zz" = some (dirWithKey "smith2020") ∧
      ∃ w1 w2,
        checkDirKey lineEnv "/lib" "smith2020a" libCollision (entryOfKey "smith2020") =
          .ok (w1, entryOfKey "smith2020") ∧
        lookup (relabel libCollision.fs "smith2020a" tmpName) "smith2020" = none ∧
        checkDirKey lineEnv "/lib" "zz" w1 (entryOfKey "smith2020") =
          .ok (w2, entryOfKey "smith2020a") ∧
        lookup (relabel w1.fs "zz" tmpName) "smith2020a" = none ∧
        lookup w2.fs "smith2020a" = some (dirWithKey "smith2020a")) := by
  refine ⟨⟨by decide, by decide, by decide⟩, by decide, by decide, ?_⟩
  exact ⟨⟨[("smith2020", dirWithKey "smith2020"), ("zz", dirWithKey "smith2020")],
      ["Renamed:", "  /lib/smith2020a > /lib/smith2020"]⟩,
    ⟨[("smith2020", dirWithKey "smith2020"), ("smith2020a", dirWithKey "smith2020a")],
      ["Renamed:", "  /lib/smith2020a > /lib/smith2020", "Renamed:",
        "  /lib/zz > /lib/smith2020a"]⟩,
    by decide, by decide, by decide, by decide, by decide⟩

/-- C1 (code at the failing input). In `libReadOnly` the repair of `doe2018`
completes, the allocator having returned `smith2020a`, a name nothing bore; the
entry carries the key `smith2020a` and the directory bears that name, but the
`entry.yaml` inside it still stores the key `smith2020`: the write failed and
`update` dropped the error. -/
theorem checkDirKey_stale_metadata :
    lookup libReadOnly.fs "smith2020a" = none ∧
    ∃ w', checkDirKey lineEnv "/lib" "doe2018" libReadOnly (entryOfKey "smith2020") =
        .ok (w', entryOfKey "smith2020a") ∧
      lookup w'.fs "smith2020a" = some (readOnlyDirWithKey "smith2020") ∧
      readEntryYaml w'.fs "smith2020a" = .ok "key: smith2020" ∧
      lineUnmarshal "key: smith2020" = some (entryOfKey "smith2020") :=
  ⟨by decide,
    ⟨[("smith2020a", readOnlyDirWithKey "smith2020"), ("smith2020", dirWithKey "smith2020")],
      ["Renamed:", "  /lib/doe2018 > /lib/smith2020a"]⟩,
    by decide, by decide, by decide, by decide⟩

/-- C6 (code at the failing input). In `libReadOnlyMeta` both renames of the
repair succeed, the write of `entry.yaml` into the renamed directory fails with
`EACCES`, and `checkDirKey` completes all the same, printing its two lines. -/
theorem checkDirKey_ignores_write_failure :
    osRename libReadOnlyMeta.fs "old_key" tmpName = .ok [(tmpName, readOnlyDirWithKey "new_key")] ∧
    osRename [(tmpName, readOnlyDirWithKey "new_key")] tmpName "new_key" =
      .ok [("new_key", readOnlyDirWithKey "new_key")] ∧
    lineMarshal (entryOfKey "new_key") = some "key: new_key" ∧
    writeEntryYaml [("new_key", readOnlyDirWithKey "new_key")] "new_key" "key: new_key" =
      .error .EACCES ∧
    checkDirKey lineEnv "/lib" "old_key" libReadOnlyMeta (entryOfKey "new_key") =
      .ok ({ fs := [("new_key", readOnlyDirWithKey "new_key")],
             out := ["Renamed:", "  /lib/old_key > /lib/new_key"] }, entryOfKey "new_key") :=
  ⟨by decide, by decide, by decide, by decide, by decide⟩

/-- C4 (code at the failing input). The first load of `libReadOnly` completes
and renames `doe2018` to `smith2020a`; the second load, run on the library the
first one left, repairs that directory again and prints two more lines. -/
theorem entryList_second_load_renames :
    ∃ w1,
      entryList lineEnv "/lib" libReadOnly =
        .ok ([entryOfKey "smith2020a", entryOfKey "smith2020"], w1) ∧
      w1.out = ["Renamed:", "  /lib/doe2018 > /lib/smith2020a"] ∧
      entryList lineEnv "/lib" w1 =
        .ok ([entryOfKey "smith2020a", entryOfKey "smith2020"],
          { w1 with out := w1.out ++ ["Renamed:", "  /lib/smith2020a > /lib/smith2020a"] }) :=
  ⟨⟨[("smith2020a", readOnlyDirWithKey "smith2020"), ("smith2020", dirWithKey "smith2020")],
      ["Renamed:", "  /lib/doe2018 > /lib/smith2020a"]⟩,
    by decide, by decide, by decide⟩

/-- C7 (as stated) fails when a directory `.tmp.scholar` is in the library: the
directory `old_key` holds an entry whose key is `new_key`, nothing bears the
name `new_key`, and `checkDirKey` panics at its first rename, having printed
nothing and renamed nothing. -/
theorem checkDirKey_audit_counterexample :
    lookup libAuditStaleTmp.fs "old_key" = some (dirWithKey "new_key") ∧
    (readEntryYaml libAuditStaleTmp.fs "old_key").toOption.bind lineUnmarshal =
      some (entryOfKey "new_key") ∧
    lookup libAuditStaleTmp.fs "new_key" = none ∧
    checkDirKey lineEnv "/lib" "old_key" libAuditStaleTmp (entryOfKey "new_key") =
      .error (.renameToTmp .EEXIST) :=
  ⟨by decide, by decide, by decide, by decide⟩

/-- Instance of `checkDirKey_noop_on_match`. -/
theorem checkDirKey_noop_on_match_witness :
    ∃ w' e', checkDirKey lineEnv "/lib" "smith2020" libClean (entryOfKey "smith2020") =
        .ok (w', e') ∧ w'.fs = libClean.fs ∧ w'.out = libClean.out ∧
      e'.Key = (entryOfKey "smith2020").Key ∧ e' = entryOfKey "smith2020" :=
  checkDirKey_noop_on_match lineEnv "/lib" "smith2020" libClean (entryOfKey "smith2020") rfl

/-! ## Printed paths -/

theorem splitSlash_ne_nil (cs : List Char) : splitSlash cs ≠ [] := by
  cases cs with
  | nil => simp [splitSlash]
  | cons c cs =>
    unfold splitSlash
    by_cases hc : c = '/'
    · simp [hc]
    · rw [if_neg hc]
      cases splitSlash cs <;> simp

theorem splitSlash_cons (c : Char) (cs : List Char) :
    splitSlash (c :: cs) =
      if c = '/' then [] :: splitSlash cs
      else
        match splitSlash cs with
        | [] => [[c]]
        | x :: xs => (c :: x) :: xs := rfl

theorem splitSlash_append (xs ys : List Char) :
    splitSlash (xs ++ '/' :: ys) = splitSlash xs ++ splitSlash ys := by
  induction xs with
  | nil =>
    rw [List.nil_append, splitSlash_cons, if_pos rfl]
    rfl
  | cons c cs ih =>
    simp only [List.cons_append, splitSlash_cons, ih]
    by_cases hc : c = '/'
    · simp only [hc, if_true, List.cons_append]
    · simp only [if_neg hc]
      cases hs : splitSlash cs with
      | nil => exact absurd hs (splitSlash_ne_nil cs)
      | cons x rest => simp

theorem splitSlash_component (n : List Char) (h : '/' ∉ n) : splitSlash n = [n] := by
  induction n with
  | nil => rfl
  | cons c cs ih =>
    simp only [List.mem_cons, not_or] at h
    rw [splitSlash_cons, if_neg (Ne.symm h.1), ih h.2]

theorem cleanStep_component (rooted : Bool) (stack : List (List Char)) (n : List Char)
    (h1 : n ≠ []) (h2 : n ≠ ['.']) (h3 : n ≠ ['.', '.']) :
    cleanStep rooted stack n = n :: stack := by
  unfold cleanStep
  rw [if_neg (by simp [h1, h2]), if_neg h3]

theorem joinSlash_snoc (comps : List (List Char)) (n : List Char) :
    ∃ pre, joinSlash (comps ++ [n]) = pre ++ n := by
  induction comps with
  | nil => exact ⟨[], rfl⟩
  | cons x rest ih =>
    obtain ⟨pre, hpre⟩ := ih
    cases hr : rest ++ [n] with
    | nil => simp at hr
    | cons y ys =>
      refine ⟨x ++ '/' :: pre, ?_⟩
      rw [List.cons_append, hr, joinSlash, ← hr, hpre]
      simp

theorem cleanPath_snoc (a n : List Char) (ha : a ≠ []) (h1 : n ≠ []) (h2 : n ≠ ['.'])
    (h3 : n ≠ ['.', '.']) (h4 : '/' ∉ n) :
    ∃ pre, cleanPath (a ++ '/' :: n) = pre ++ n := by
  cases a with
  | nil => exact absurd rfl ha
  | cons c cs =>
    have hsplit : splitSlash (c :: cs ++ '/' :: n) = splitSlash (c :: cs) ++ [n] := by
      rw [splitSlash_append, splitSlash_component n h4]
    obtain ⟨pre, hpre⟩ := joinSlash_snoc
      ((splitSlash (c :: cs)).foldl (cleanStep (decide (c = '/'))) []).reverse n
    have hcomps : ((splitSlash (c :: cs ++ '/' :: n)).foldl (cleanStep (decide (c = '/')))
        []).reverse =
        ((splitSlash (c :: cs)).foldl (cleanStep (decide (c = '/'))) []).reverse ++ [n] := by
      rw [hsplit, List.foldl_append]
      simp only [List.foldl_cons, List.foldl_nil]
      rw [cleanStep_component _ _ n h1 h2 h3, List.reverse_cons]
    show ∃ pre, cleanPath (c :: (cs ++ '/' :: n)) = pre ++ n
    unfold cleanPath
    simp only
    have hcomps' := hcomps
    simp only [List.cons_append] at hcomps'
    rw [hcomps', hpre]
    by_cases hr : c = '/'
    · simp only [hr, decide_True, if_true]
      exact ⟨'/' :: _, rfl⟩
    · simp only [hr, decide_False, Bool.false_eq_true, if_false]
      rw [if_neg]
      · exact ⟨_, rfl⟩
      · intro h
        simp at h

theorem cleanPath_component (n : List Char) (h1 : n ≠ []) (h2 : n ≠ ['.'])
    (h3 : n ≠ ['.', '.']) (h4 : '/' ∉ n) : cleanPath n = n := by
  cases n with
  | nil => exact absurd rfl h1
  | cons c cs =>
    have hc : c ≠ '/' := by
      intro h; apply h4; simp [h]
    unfold cleanPath
    simp only [splitSlash_component _ h4, List.foldl_cons, List.foldl_nil,
      cleanStep_component _ _ _ h1 h2 h3, List.reverse_cons, List.reverse_nil, List.nil_append,
      hc, decide_False, Bool.false_eq_true, if_false, joinSlash]
    rw [if_neg (by simp)]

/-- The joined path ends with the name when the name is one path component. -/
theorem filepathJoin_ends (path n : String) (hv : validName n) :
    ∃ pre, (filepathJoin path n).data = pre ++ n.data := by
  obtain ⟨h1, h2, h3, h4⟩ := hv
  unfold filepathJoin
  by_cases hp : path = ""
  · have hn : n ≠ "" := by
      intro h; apply h1; rw [h]
    rw [if_neg (by simpa using hp), if_pos hn]
    exact ⟨[], by rw [cleanPath_component _ h1 h2 h3 h4]; rfl⟩
  · rw [if_pos hp]
    have hpd : path.data ≠ [] := by
      intro h; apply hp; exact String.ext h
    exact cleanPath_snoc _ _ hpd h1 h2 h3 h4

/-- The lines printed by the repair, written out. -/
theorem auditLines_eq (path dir key : String) :
    auditLines path dir key =
      ["Renamed:", "  " ++ filepathJoin path dir ++ " > " ++ filepathJoin path key] := by
  unfold auditLines printlnText printlnText printlnText printlnText
  congr 1
  congr 1
  apply String.ext
  simp only [String.data_append]
  simp [List.append_assoc]

/-- The second printed line contains the old name and the new one. -/
theorem auditLine_contains (path old new : String) (hvo : validName old)
    (hvn : validName new) :
    old.data <:+: ("  " ++ filepathJoin path old ++ " > " ++ filepathJoin path new).data ∧
      new.data <:+: ("  " ++ filepathJoin path old ++ " > " ++ filepathJoin path new).data := by
  obtain ⟨p1, h1⟩ := filepathJoin_ends path old hvo
  obtain ⟨p2, h2⟩ := filepathJoin_ends path new hvn
  simp only [String.data_append, h1, h2]
  constructor
  · exact ⟨"  ".data ++ p1, " > ".data ++ (p2 ++ new.data), by simp [List.append_assoc]⟩
  · exact ⟨"  ".data ++ (p1 ++ old.data) ++ " > ".data ++ p2, [], by simp [List.append_assoc]⟩

/-! ## The audit scenario -/

/-- C7 (amended). The directory `old_key` holds an entry whose key is `new_key`,
a different name; nothing in the library bears `new_key` or the reserved name
`.tmp.scholar`, `new_key` is not the reserved name, the allocator hands back a
key nothing bears, and the entry can be serialised. Then `checkDirKey`
completes and prints `Renamed:` followed by one line, made of two spaces, the
joined path of the old name, ` > ` and the joined path of the new name; that
line contains both names, which are single path components; afterwards
`new_key` is a directory of the library and nothing is called `old_key`. -/
theorem checkDirKey_audit (env : Env) (path old new y : String) (w : World) (e : Entry)
    (d : Dir) (hne : old ≠ new) (hold : lookup w.fs old = some (.dir d))
    (hkey : e.GetKey = new) (hnew : lookup w.fs new = none)
    (htmp : lookup w.fs tmpName = none) (hnt : new ≠ tmpName) (hkeep : env.KeepsFree)
    (hm : env.marshal e = some y) (hvo : validName old) (hvn : validName new) :
    ∃ w', checkDirKey env path old w e = .ok (w', e) ∧
      w'.out = w.out ++
        ["Renamed:", "  " ++ filepathJoin path old ++ " > " ++ filepathJoin path new] ∧
      old.data <:+: ("  " ++ filepathJoin path old ++ " > " ++ filepathJoin path new).data ∧
      new.data <:+: ("  " ++ filepathJoin path old ++ " > " ++ filepathJoin path new).data ∧
      (∃ d', lookup w'.fs new = some (.dir d')) ∧ lookup w'.fs old = none := by
  have hfree : lookup (relabel w.fs old tmpName) new = none := by
    rw [lookup_relabel_of_ne _ _ _ _ (Ne.symm hne) hnt]; exact hnew
  have hk : new = env.getUniqueKey (relabel w.fs old tmpName) e.GetKey := by
    rw [hkey, hkeep _ _ hfree]
  have he : ({ e with Key := new } : Entry) = e := by
    cases e; simp only [Entry.GetKey] at hkey; subst hkey; rfl
  obtain ⟨w', hc, hout, hn, _, ho, _⟩ :=
    checkDirKey_repair env path old new y w e d (by rw [hkey]; exact hne) hold htmp hk hfree
      (by rw [he]; exact hm) (aboveRoot_of_validName old hvo) (aboveRoot_of_validName new hvn)
  rw [he] at hc
  refine ⟨w', hc, ?_, (auditLine_contains path old new hvo hvn).1,
    (auditLine_contains path old new hvo hvn).2, ⟨_, hn⟩, ho (Ne.symm hne)⟩
  rw [hout, auditLines_eq]

/-- Instance of `checkDirKey_audit` on the library `libAudit`. -/
theorem checkDirKey_audit_witness :
    ∃ w', checkDirKey lineEnv "/lib" "old_key" libAudit (entryOfKey "new_key") =
        .ok (w', entryOfKey "new_key") ∧
      w'.out = libAudit.out ++
        ["Renamed:", "  " ++ filepathJoin "/lib" "old_key" ++ " > " ++
          filepathJoin "/lib" "new_key"] ∧
      "old_key".data <:+: ("  " ++ filepathJoin "/lib" "old_key" ++ " > " ++
        filepathJoin "/lib" "new_key").data ∧
      "new_key".data <:+: ("  " ++ filepathJoin "/lib" "old_key" ++ " > " ++
        filepathJoin "/lib" "new_key").data ∧
      (∃ d', lookup w'.fs "new_key" = some (.dir d')) ∧ lookup w'.fs "old_key" = none :=
  checkDirKey_audit lineEnv "/lib" "old_key" "new_key" "key: new_key" libAudit
    (entryOfKey "new_key") (dirOfKey "new_key" true) (by decide) (by decide) rfl (by decide)
    (by decide) (by decide) lineEnv_keepsFree rfl (by unfold validName; decide)
    (by unfold validName; decide)

/-! ## Interleavings of the goroutines -/

theorem isDirAt_iff (fs : Lib) (b : String) :
    isDirAt fs b = true ↔ ∃ d, lookup fs b = some (.dir d) := by
  unfold isDirAt
  cases h : lookup fs b with
  | none => simp
  | some x =>
    cases x with
    | file f => simp
    | dir d => simp

theorem osRename_frame_isDirAt (fs fs' : Lib) (old new b : String)
    (h : osRename fs old new = .ok fs') (hb : isDirAt fs b = true) (hne : b ≠ old) :
    isDirAt fs' b = true := by
  obtain ⟨d, hd⟩ := (isDirAt_iff fs b).mp hb
  exact (isDirAt_iff fs' b).mpr ⟨d, osRename_frame fs fs' old new b d h hd hne⟩

/-- A rename onto a name that is a directory fails. -/
theorem osRename_onto_dir (fs : Lib) (old new : String) (h : isDirAt fs new = true) :
    ∃ err, osRename fs old new = .error err := by
  cases hr : osRename fs old new with
  | error err => exact ⟨err, rfl⟩
  | ok fs' =>
    obtain ⟨d, hd⟩ := (isDirAt_iff fs new).mp h
    exact absurd hd (osRename_target fs fs' old new hr d)

theorem osRename_dir_isDirAt (fs fs' : Lib) (old new : String) (h : isDirAt fs old = true)
    (hr : osRename fs old new = .ok fs') : lookup fs new = none ∧ isDirAt fs' new = true := by
  obtain ⟨d, hd⟩ := (isDirAt_iff fs old).mp h
  obtain ⟨hn, rfl⟩ := osRename_dir_inv fs fs' old new d hd hr
  refine ⟨hn, (isDirAt_iff _ _).mpr ⟨d, ?_⟩⟩
  rw [lookup_relabel_new _ _ _ hn]; exact hd

theorem update_isDirAt (env : Env) (fs fs' : Lib) (e : Entry) (b : String)
    (h : update env fs e = .ok fs') (hb : isDirAt fs b = true) : isDirAt fs' b = true := by
  unfold update at h
  simp only at h
  split at h
  · simp at h
  · split at h
    · rename_i fs2 hw
      simp only [Except.ok.injEq] at h
      subst h
      unfold writeEntryYaml at hw
      split at hw
      · split at hw
        · simp only [Except.ok.injEq] at hw
          subst hw
          obtain ⟨d, hd⟩ := (isDirAt_iff fs b).mp hb
          rw [isDirAt_iff, lookup_overwrite]
          by_cases hbk : b = e.GetKey
          · rw [if_pos hbk, hd]; exact ⟨_, rfl⟩
          · rw [if_neg hbk]; exact ⟨d, hd⟩
        · simp at hw
      · simp at hw
      · simp at hw
    · simp only [Except.ok.injEq] at h
      subst h; exact hb

theorem countP_holds_split (pre post : List Goroutine) (g : Goroutine) :
    (pre ++ g :: post).countP Goroutine.holdsTmp =
      pre.countP Goroutine.holdsTmp + post.countP Goroutine.holdsTmp +
        (if g.holdsTmp = true then 1 else 0) := by
  rw [List.countP_append, List.countP_cons]
  omega

theorem initial_inv (w : World) (hwf : w.fs.WF) : Inv (initial w) := by
  refine ⟨?_, ?_, ?_, ?_⟩
  · simp only [initial, List.map_map, Function.comp_def]
    have := readDir_names w.fs
    rw [this]; exact hwf
  · intro g hg hw
    simp only [initial, List.mem_map] at hg
    obtain ⟨i, hi, rfl⟩ := hg
    simp only [Goroutine.waiting] at hw
    obtain ⟨d, hd⟩ := mem_readDir_inv _ i hi hw
    exact (isDirAt_iff _ _).mpr ⟨d, lookup_of_mem _ hwf _ _ hd⟩
  · have h0 : (initial w).goroutines.countP Goroutine.holdsTmp = 0 := by
      rw [List.countP_eq_zero]
      intro g hg
      simp only [initial, List.mem_map] at hg
      obtain ⟨i, _, rfl⟩ := hg
      simp [Goroutine.holdsTmp]
    omega
  · intro h
    have h0 : (initial w).goroutines.countP Goroutine.holdsTmp = 0 := by
      rw [List.countP_eq_zero]
      intro g hg
      simp only [initial, List.mem_map] at hg
      obtain ⟨i, _, rfl⟩ := hg
      simp [Goroutine.holdsTmp]
    omega

/-- What a step that advances does: it changes nothing in the library, or it is
the first rename, the second rename, or `update`. -/
theorem stepGoroutine_ok_cases (env : Env) (path : String) (w w' : World)
    (es es' : List Entry) (g g' : Goroutine)
    (h : stepGoroutine env path w es g = some (.ok (w', es', g'))) :
    g'.dir = g.dir ∧
    ((w' = w ∧ g'.holdsTmp = g.holdsTmp ∧ (g'.waiting = true → g.waiting = true) ∧
        ∀ e, g'.phase ≠ .moved e) ∨
      (∃ e, g.phase = .loaded e ∧ g'.phase = .holding e ∧
        osRename w.fs g.dir.Name tmpName = .ok w'.fs) ∨
      (∃ e, g.phase = .allocated e ∧ g'.phase = .moved e ∧
        osRename w.fs tmpName e.GetKey = .ok w'.fs) ∨
      (∃ e, g.phase = .moved e ∧ g'.phase = .finished ∧ update env w.fs e = .ok w'.fs)) := by
  obtain ⟨dir, phase⟩ := g
  unfold stepGoroutine at h
  cases phase with
  | start =>
    simp only at h
    split at h
    · rename_i hd
      split at h
      · simp at h
      · split at h
        · simp at h
        · simp only [Option.some.injEq, Except.ok.injEq, Prod.mk.injEq] at h
          obtain ⟨rfl, _, rfl⟩ := h
          exact ⟨rfl, Or.inl ⟨rfl, rfl, fun _ => hd, fun _ => by simp⟩⟩
    · simp only [Option.some.injEq, Except.ok.injEq, Prod.mk.injEq] at h
      obtain ⟨rfl, _, rfl⟩ := h
      exact ⟨rfl, Or.inl ⟨rfl, rfl, fun hw => by simp [Goroutine.waiting] at hw, fun _ => by simp⟩⟩
  | loaded e =>
    simp only at h
    split at h
    · simp only [Option.some.injEq, Except.ok.injEq, Prod.mk.injEq] at h
      obtain ⟨rfl, _, rfl⟩ := h
      exact ⟨rfl, Or.inl ⟨rfl, rfl, fun hw => by simp [Goroutine.waiting] at hw, fun _ => by simp⟩⟩
    · split at h
      · simp at h
      · rename_i fs1 h1
        simp only [Option.some.injEq, Except.ok.injEq, Prod.mk.injEq] at h
        obtain ⟨rfl, _, rfl⟩ := h
        exact ⟨rfl, Or.inr (Or.inl ⟨e, rfl, rfl, h1⟩)⟩
  | holding e =>
    simp only [Option.some.injEq, Except.ok.injEq, Prod.mk.injEq] at h
    obtain ⟨rfl, _, rfl⟩ := h
    exact ⟨rfl, Or.inl ⟨rfl, rfl, fun hw => by simp [Goroutine.waiting] at hw, fun _ => by simp⟩⟩
  | allocated e =>
    simp only at h
    split at h
    · simp at h
    · rename_i fs2 h2
      simp only [Option.some.injEq, Except.ok.injEq, Prod.mk.injEq] at h
      obtain ⟨rfl, _, rfl⟩ := h
      exact ⟨rfl, Or.inr (Or.inr (Or.inl ⟨e, rfl, rfl, h2⟩))⟩
  | moved e =>
    simp only at h
    split at h
    · simp at h
    · rename_i fs3 h3
      simp only [Option.some.injEq, Except.ok.injEq, Prod.mk.injEq] at h
      obtain ⟨rfl, _, rfl⟩ := h
      exact ⟨rfl, Or.inr (Or.inr (Or.inr ⟨e, rfl, rfl, h3⟩))⟩
  | finished => simp at h

theorem names_ne_of_nodup (pre post : List Goroutine) (g x : Goroutine)
    (hnd : ((pre ++ g :: post).map (fun g => g.dir.Name)).Nodup) (hx : x ∈ pre ∨ x ∈ post) :
    x.dir.Name ≠ g.dir.Name := by
  rw [List.map_append, List.map_cons] at hnd
  have h := (List.nodup_middle.mp hnd)
  rw [List.nodup_cons] at h
  intro heq
  apply h.1
  rw [← heq, List.mem_append]
  rcases hx with hx | hx
  · exact Or.inl (List.mem_map_of_mem (fun g => g.dir.Name) hx)
  · exact Or.inr (List.mem_map_of_mem (fun g => g.dir.Name) hx)

theorem mem_middle (pre post : List Goroutine) (g x : Goroutine) :
    x ∈ pre ++ g :: post ↔ x = g ∨ (x ∈ pre ∨ x ∈ post) := by
  simp only [List.mem_append, List.mem_cons]
  tauto

/-- Every step of the process keeps the invariant. -/
theorem step_inv (env : Env) (path : String) (c c' : Config) (hinv : Inv c)
    (hstep : Step env path c c') : Inv c' := by
  cases hstep with
  | panic w es pre post g p h => exact hinv
  | advance w w' es es' pre post g g' h =>
    obtain ⟨hnd, hb, hc, hd⟩ := hinv
    simp only at hnd hb hc hd
    obtain ⟨hdir, hkind⟩ := stepGoroutine_ok_cases env path w w' es es' g g' h
    have hnames : (pre ++ g' :: post).map (fun g => g.dir.Name) =
        (pre ++ g :: post).map (fun g => g.dir.Name) := by
      simp only [List.map_append, List.map_cons, hdir]
    have hothers : ∀ x, x ∈ pre ∨ x ∈ post → x.dir.Name ≠ g.dir.Name :=
      fun x hx => names_ne_of_nodup pre post g x hnd hx
    rw [countP_holds_split] at hc hd
    refine ⟨by simp only; rw [hnames]; exact hnd, ?_, ?_, ?_⟩
    all_goals simp only
    all_goals try rw [countP_holds_split]
    · -- waiting goroutines find their directory
      intro x hx hw
      rw [mem_middle] at hx
      rcases hkind with ⟨rfl, _, hwg, _⟩ | ⟨e, hp, hp', hr⟩ | ⟨e, hp, hp', hr⟩ | ⟨e, hp, hp', hu⟩
      · rcases hx with rfl | hx
        · rw [hdir]
          exact hb g ((mem_middle pre post g g).mpr (Or.inl rfl)) (hwg hw)
        · exact hb x ((mem_middle pre post g x).mpr (Or.inr hx)) hw
      · rcases hx with rfl | hx
        · simp [Goroutine.waiting, hp'] at hw
        · exact osRename_frame_isDirAt _ _ _ _ _ hr
            (hb x ((mem_middle pre post g x).mpr (Or.inr hx)) hw) (hothers x hx)
      · rcases hx with rfl | hx
        · simp [Goroutine.waiting, hp'] at hw
        · have hg : g.holdsTmp = true := by simp [Goroutine.holdsTmp, hp]
          have hx' := (mem_middle pre post g x).mpr (Or.inr hx)
          have hne := (hd (by rw [if_pos hg]; omega)).2 x hx' hw
          exact osRename_frame_isDirAt _ _ _ _ _ hr (hb x hx' hw) hne
      · rcases hx with rfl | hx
        · simp [Goroutine.waiting, hp'] at hw
        · exact update_isDirAt env _ _ e _ hu
            (hb x ((mem_middle pre post g x).mpr (Or.inr hx)) hw)
    · -- at most one holder
      rcases hkind with ⟨rfl, hh, _, _⟩ | ⟨e, hp, hp', hr⟩ | ⟨e, hp, hp', hr⟩ | ⟨e, hp, hp', hu⟩
      · rw [hh]; exact hc
      · have hg : g.holdsTmp = false := by simp [Goroutine.holdsTmp, hp]
        have hg' : g'.holdsTmp = true := by simp [Goroutine.holdsTmp, hp']
        rw [hg] at hc hd
        simp only [Bool.false_eq_true, if_false, Nat.add_zero] at hc hd
        rw [if_pos hg']
        by_contra hcon
        have h1 : 1 ≤ pre.countP Goroutine.holdsTmp + post.countP Goroutine.holdsTmp := by
          omega
        obtain ⟨err, herr⟩ := osRename_onto_dir w.fs g.dir.Name tmpName (hd h1).1
        rw [herr] at hr; simp at hr
      · have hg : g.holdsTmp = true := by simp [Goroutine.holdsTmp, hp]
        have hg' : g'.holdsTmp = false := by simp [Goroutine.holdsTmp, hp']
        rw [if_pos hg] at hc
        rw [hg']; simp only [Bool.false_eq_true, if_false]
        omega
      · have hg : g.holdsTmp = false := by simp [Goroutine.holdsTmp, hp]
        have hg' : g'.holdsTmp = false := by simp [Goroutine.holdsTmp, hp']
        rw [hg] at hc; rw [hg']; exact hc
    · -- while one holds, the reserved name is a directory no waiting goroutine is for
      intro hcount
      rcases hkind with ⟨rfl, hh, hwg, _⟩ | ⟨e, hp, hp', hr⟩ | ⟨e, hp, hp', hr⟩ | ⟨e, hp, hp', hu⟩
      · rw [hh] at hcount
        obtain ⟨ht, hall⟩ := hd hcount
        refine ⟨ht, ?_⟩
        intro x hx hw
        rw [mem_middle] at hx
        rcases hx with rfl | hx
        · rw [hdir]
          exact hall g ((mem_middle pre post g g).mpr (Or.inl rfl)) (hwg hw)
        · exact hall x ((mem_middle pre post g x).mpr (Or.inr hx)) hw
      · have hgw : g.waiting = true := by simp [Goroutine.waiting, hp]
        have hgd := hb g ((mem_middle pre post g g).mpr (Or.inl rfl)) hgw
        obtain ⟨hnone, ht⟩ := osRename_dir_isDirAt _ _ _ _ hgd hr
        refine ⟨ht, ?_⟩
        intro x hx hw
        rw [mem_middle] at hx
        rcases hx with rfl | hx
        · simp [Goroutine.waiting, hp'] at hw
        · intro heq
          have hxd := hb x ((mem_middle pre post g x).mpr (Or.inr hx)) hw
          rw [heq, isDirAt_iff] at hxd
          obtain ⟨d, hd'⟩ := hxd
          rw [hnone] at hd'; simp at hd'
      · have hg : g.holdsTmp = true := by simp [Goroutine.holdsTmp, hp]
        have hg' : g'.holdsTmp = false := by simp [Goroutine.holdsTmp, hp']
        rw [if_pos hg] at hc
        rw [hg'] at hcount
        simp only [Bool.false_eq_true, if_false] at hcount
        omega
      · have hg : g.holdsTmp = false := by simp [Goroutine.holdsTmp, hp]
        have hg' : g'.holdsTmp = false := by simp [Goroutine.holdsTmp, hp']
        rw [hg'] at hcount
        rw [hg] at hd
        obtain ⟨ht, hall⟩ := hd hcount
        refine ⟨update_isDirAt env _ _ e _ hu ht, ?_⟩
        intro x hx hw
        rw [mem_middle] at hx
        rcases hx with rfl | hx
        · simp [Goroutine.waiting, hp'] at hw
        · exact hall x ((mem_middle pre post g x).mpr (Or.inr hx)) hw

/-- Every reachable configuration satisfies the invariant. -/
theorem reachable_inv (env : Env) (path : String) (w : World) (hwf : w.fs.WF) (c : Config)
    (h : Reachable env path w c) : Inv c := by
  induction h with
  | init => exact initial_inv w hwf
  | step c c' _ hstep ih => exact step_inv env path c c' ih hstep

/-! ## The reserved name under concurrent repairs -/

theorem configFirstHolds_reachable :
    Reachable lineEnv "/lib" libTwoMismatches configFirstHolds := by
  have h0 : Reachable lineEnv "/lib" libTwoMismatches (initial libTwoMismatches) :=
    Reachable.init
  have h1 := Reachable.step _ _ h0
    (Step.advance libTwoMismatches libTwoMismatches [] [] []
      [⟨⟨"roe2021", true⟩, .start⟩] ⟨⟨"doe2018", true⟩, .start⟩
      ⟨⟨"doe2018", true⟩, .loaded (entryOfKey "doe2017")⟩ (by decide))
  have h2 := Reachable.step _ _ h1
    (Step.advance libTwoMismatches configFirstHolds.world [] [] []
      [⟨⟨"roe2021", true⟩, .start⟩] ⟨⟨"doe2018", true⟩, .loaded (entryOfKey "doe2017")⟩
      ⟨⟨"doe2018", true⟩, .holding (entryOfKey "doe2017")⟩ (by decide))
  exact Reachable.step _ _ h2
    (Step.advance configFirstHolds.world configFirstHolds.world [] []
      [⟨⟨"doe2018", true⟩, .holding (entryOfKey "doe2017")⟩] []
      ⟨⟨"roe2021", true⟩, .start⟩ ⟨⟨"roe2021", true⟩, .loaded (entryOfKey "roe2020")⟩
      (by decide))

/-- C9. In every configuration an interleaving of the goroutines leads to, at
most one goroutine holds the reserved name `.tmp.scholar`. Whenever a step of a
goroutine makes it a holder, that is, whenever its rename onto `.tmp.scholar`
goes through, nothing bore that name and no other goroutine held it: no
directory is renamed onto `.tmp.scholar` while the directory of another
goroutine occupies it. A goroutine that comes to that rename while another one
holds the name has the rename refused, and panics. -/
theorem tmp_held_by_at_most_one (env : Env) (path : String) (w : World) (hwf : w.fs.WF)
    (c : Config) (h : Reachable env path w c) :
    c.goroutines.countP Goroutine.holdsTmp ≤ 1 ∧
    (∀ pre post g g' w' es', c.goroutines = pre ++ g :: post →
      stepGoroutine env path c.world c.entries g = some (.ok (w', es', g')) →
      g.holdsTmp = false → g'.holdsTmp = true →
      lookup c.world.fs tmpName = none ∧ (pre ++ post).countP Goroutine.holdsTmp = 0 ∧
      isDirAt w'.fs tmpName = true) ∧
    ∀ pre post g e, c.goroutines = pre ++ g :: post → g.phase = .loaded e →
      g.dir.Name ≠ e.GetKey → 1 ≤ (pre ++ post).countP Goroutine.holdsTmp →
      ∃ err, stepGoroutine env path c.world c.entries g = some (.error (.renameToTmp err)) := by
  obtain ⟨_, hb, hc, hd⟩ := reachable_inv env path w hwf c h
  refine ⟨hc, ?_, ?_⟩
  · intro pre post g g' w' es' hgs hstep hg hg'
    obtain ⟨_, hkind⟩ := stepGoroutine_ok_cases env path c.world w' c.entries es' g g' hstep
    rw [hgs, countP_holds_split] at hd
    rw [hgs] at hb
    rcases hkind with ⟨_, hh, _, _⟩ | ⟨e, hp, hp', hr⟩ | ⟨e, hp, _, _⟩ | ⟨e, _, hp', _⟩
    · rw [hh, hg] at hg'; simp at hg'
    · have hgw : g.waiting = true := by simp [Goroutine.waiting, hp]
      have hgd := hb g ((mem_middle pre post g g).mpr (Or.inl rfl)) hgw
      obtain ⟨hnone, ht⟩ := osRename_dir_isDirAt _ _ _ _ hgd hr
      refine ⟨hnone, ?_, ht⟩
      rw [List.countP_append]
      by_contra hcon
      have h1 : 1 ≤ pre.countP Goroutine.holdsTmp + post.countP Goroutine.holdsTmp +
          (if g.holdsTmp = true then 1 else 0) := by omega
      have hdir := (hd h1).1
      rw [isDirAt_iff] at hdir
      obtain ⟨d, hd'⟩ := hdir
      rw [hnone] at hd'; simp at hd'
    · simp [Goroutine.holdsTmp, hp] at hg
    · simp [Goroutine.holdsTmp, hp'] at hg'
  · intro pre post g e hgs hp hne hcount
    rw [hgs, countP_holds_split] at hd
    rw [List.countP_append] at hcount
    obtain ⟨err, herr⟩ := osRename_onto_dir c.world.fs g.dir.Name tmpName (hd (by omega)).1
    refine ⟨err, ?_⟩
    unfold stepGoroutine
    rw [hp]
    simp only [if_neg hne, herr]

/-- Instance of `tmp_held_by_at_most_one` at the configuration `configFirstHolds`. -/
theorem tmp_held_by_at_most_one_witness :
    libTwoMismatches.fs.WF ∧
    Reachable lineEnv "/lib" libTwoMismatches configFirstHolds ∧
    configFirstHolds.goroutines.countP Goroutine.holdsTmp = 1 ∧
    configFirstHolds.goroutines.countP Goroutine.holdsTmp ≤ 1 ∧
    (∀ pre post g g' w' es', configFirstHolds.goroutines = pre ++ g :: post →
      stepGoroutine lineEnv "/lib" configFirstHolds.world configFirstHolds.entries g =
        some (.ok (w', es', g')) →
      g.holdsTmp = false → g'.holdsTmp = true →
      lookup configFirstHolds.world.fs tmpName = none ∧
      (pre ++ post).countP Goroutine.holdsTmp = 0 ∧ isDirAt w'.fs tmpName = true) ∧
    ∀ pre post g e, configFirstHolds.goroutines = pre ++ g :: post → g.phase = .loaded e →
      g.dir.Name ≠ e.GetKey → 1 ≤ (pre ++ post).countP Goroutine.holdsTmp →
      ∃ err, stepGoroutine lineEnv "/lib" configFirstHolds.world configFirstHolds.entries g =
        some (.error (.renameToTmp err)) :=
  ⟨by decide, configFirstHolds_reachable, by decide,
    tmp_held_by_at_most_one lineEnv "/lib" libTwoMismatches (by decide)
      configFirstHolds configFirstHolds_reachable⟩

/-- Loading `libTwoMismatches`, an interleaving leads to the configuration in
which the directory of `doe2018` occupies `.tmp.scholar` and the goroutine of
`roe2021` is at its first rename; that rename is refused and the process ends
in a panic, while the same two goroutines complete when run one after the
other. -/
theorem tmp_rename_refused_example :
    Reachable lineEnv "/lib" libTwoMismatches configFirstHolds ∧
    configFirstHolds.goroutines =
      [⟨⟨"doe2018", true⟩, .holding (entryOfKey "doe2017")⟩,
       ⟨⟨"roe2021", true⟩, .loaded (entryOfKey "roe2020")⟩] ∧
    lookup configFirstHolds.world.fs tmpName = some (dirWithKey "doe2017") ∧
    stepGoroutine lineEnv "/lib" configFirstHolds.world configFirstHolds.entries
      ⟨⟨"roe2021", true⟩, .loaded (entryOfKey "roe2020")⟩ =
        some (.error (.renameToTmp .EEXIST)) ∧
    Step lineEnv "/lib" configFirstHolds
      { configFirstHolds with panicked := some (.renameToTmp .EEXIST) } ∧
    (entryList lineEnv "/lib" libTwoMismatches).toOption.map (fun r => r.1) =
      some [entryOfKey "doe2017", entryOfKey "roe2020"] :=
  ⟨configFirstHolds_reachable, rfl, by decide, by decide,
    Step.panic configFirstHolds.world [] [⟨⟨"doe2018", true⟩, .holding (entryOfKey "doe2017")⟩]
      [] ⟨⟨"roe2021", true⟩, .loaded (entryOfKey "roe2020")⟩ (.renameToTmp .EEXIST)
      (by decide),
    by decide⟩

/-! ## Loading under every interleaving -/

theorem read_bad (env : Env) (fs : Lib) (b : String) (d : Dir)
    (hb : lookup fs b = some (.dir d)) (hbad : badDir env d) :
    (∃ err, readEntryYaml fs b = .error err) ∨
      ∃ data, readEntryYaml fs b = .ok data ∧ env.unmarshal data = none := by
  unfold readEntryYaml
  simp only [hb]
  rcases hbad with h | ⟨f, hf, h | h⟩
  · left; rw [h]; exact ⟨_, rfl⟩
  · left; rw [hf]; simp only; rw [h]; exact ⟨_, rfl⟩
  · rw [hf]; simp only
    cases hr : f.readable with
    | false => left; exact ⟨_, rfl⟩
    | true => right; exact ⟨_, rfl, h⟩

/-- The first step of the goroutine of a directory whose metadata cannot be read
or decoded is a panic. -/
theorem stepGoroutine_bad (env : Env) (path b : String) (w : World) (es : List Entry)
    (d : Dir) (hb : lookup w.fs b = some (.dir d)) (hbad : badDir env d) :
    ∃ p, stepGoroutine env path w es ⟨⟨b, true⟩, .start⟩ = some (.error p) := by
  unfold stepGoroutine
  simp only [if_true]
  rcases read_bad env w.fs b d hb hbad with ⟨err, h⟩ | ⟨data, h, hu⟩
  · simp only [h]; exact ⟨_, rfl⟩
  · simp only [h, hu]; exact ⟨_, rfl⟩

theorem step_badInv (env : Env) (path b : String) (d : Dir) (hbad : badDir env d)
    (c c' : Config) (hinv : Inv c) (hk : BadInv b d c) (hstep : Step env path c c') :
    BadInv b d c' := by
  cases hstep with
  | panic w es pre post g p h => exact hk
  | advance w w' es es' pre post g g' h =>
    obtain ⟨hnd, _, _, hd⟩ := hinv
    obtain ⟨hmem, hlook, hmoved⟩ := hk
    simp only at hnd hd hmem hlook hmoved
    obtain ⟨hdir, hkind⟩ := stepGoroutine_ok_cases env path w w' es es' g g' h
    have hgne : (⟨⟨b, true⟩, .start⟩ : Goroutine) ≠ g := by
      rintro rfl
      obtain ⟨p, hp⟩ := stepGoroutine_bad env path b w es d hlook hbad
      rw [hp] at h; simp at h
    have hmem' : (⟨⟨b, true⟩, .start⟩ : Goroutine) ∈ pre ∨
        (⟨⟨b, true⟩, .start⟩ : Goroutine) ∈ post := by
      rcases (mem_middle pre post g _).mp hmem with h1 | h1
      · exact absurd h1 hgne
      · exact h1
    have hbg : b ≠ g.dir.Name := names_ne_of_nodup pre post g _ hnd hmem'
    have hbw : (⟨⟨b, true⟩, .start⟩ : Goroutine).waiting = true := rfl
    refine ⟨(mem_middle pre post g' _).mpr (Or.inr hmem'), ?_, ?_⟩
    · show lookup w'.fs b = some (.dir d)
      rcases hkind with ⟨rfl, _, _, _⟩ | ⟨e, hp, hp', hr⟩ | ⟨e, hp, hp', hr⟩ | ⟨e, hp, hp', hu⟩
      · exact hlook
      · exact osRename_frame _ _ _ _ _ d hr hlook hbg
      · have hg : g.holdsTmp = true := by simp [Goroutine.holdsTmp, hp]
        have hcount : 1 ≤ (pre ++ g :: post).countP Goroutine.holdsTmp := by
          rw [countP_holds_split, if_pos hg]; omega
        have hbt : b ≠ tmpName := (hd hcount).2 _ hmem hbw
        exact osRename_frame _ _ _ _ _ d hr hlook hbt
      · have hkb : b ≠ e.GetKey :=
          Ne.symm (hmoved g ((mem_middle pre post g g).mpr (Or.inl rfl)) e hp)
        rw [update_frame env _ _ e b hu hkb]
        exact hlook
    · intro x hx e hpx
      rcases (mem_middle pre post g' x).mp hx with rfl | hx
      · rcases hkind with ⟨_, _, _, hnm⟩ | ⟨e1, _, hp', _⟩ | ⟨e1, _, hp', hr⟩ | ⟨e1, _, hp', _⟩
        · exact absurd hpx (hnm e)
        · rw [hp'] at hpx; simp at hpx
        · rw [hp'] at hpx
          simp only [Phase.moved.injEq] at hpx
          subst hpx
          intro hkb
          rw [← hkb] at hlook
          exact osRename_target _ _ _ _ hr d hlook
        · rw [hp'] at hpx; simp at hpx
      · exact hmoved x ((mem_middle pre post g x).mpr (Or.inr hx)) e hpx

theorem reachable_badInv (env : Env) (path : String) (w : World) (hwf : w.fs.WF)
    (b : String) (d : Dir) (hmem : (b, Node.dir d) ∈ w.fs) (hbad : badDir env d)
    (c : Config) (h : Reachable env path w c) : BadInv b d c := by
  induction h with
  | init =>
    refine ⟨?_, lookup_of_mem _ hwf _ _ hmem, ?_⟩
    · simp only [initial, List.mem_map]
      exact ⟨⟨b, true⟩, mem_readDir_dir _ _ _ hmem, rfl⟩
    · intro g hg e hp
      simp only [initial, List.mem_map] at hg
      obtain ⟨i, _, rfl⟩ := hg
      simp at hp
  | step c c' hr hstep ih =>
    exact step_badInv env path b d hbad c c' (reachable_inv env path w hwf c hr) ih hstep

/-- A step of a goroutine whose directory is in step with its metadata: it has
returned already, or it advances without touching the library, sending its
entry to the queue when it returns. -/
theorem stepGoroutine_good (env : Env) (path : String) (w : World) (es : List Entry)
    (g : Goroutine)
    (hphase : g.phase = .start ∨
      (∃ e, g.phase = .loaded e ∧ e.GetKey = g.dir.Name ∧ g.dir.IsDir = true) ∨
      g.phase = .finished)
    (hread : g.dir.IsDir = true → ∃ data e, readEntryYaml w.fs g.dir.Name = .ok data ∧
      env.unmarshal data = some e ∧ e.GetKey = g.dir.Name) :
    stepGoroutine env path w es g = none ∨
    (∃ g', stepGoroutine env path w es g = some (.ok (w, es, g')) ∧ g'.dir = g.dir ∧
      g.published = false ∧ g'.published = false ∧
      (g'.phase = .start ∨
        (∃ e, g'.phase = .loaded e ∧ e.GetKey = g'.dir.Name ∧ g'.dir.IsDir = true) ∨
        g'.phase = .finished)) ∨
    (∃ g' e, stepGoroutine env path w es g = some (.ok (w, es ++ [e], g')) ∧
      g'.dir = g.dir ∧ g.published = false ∧ g'.published = true ∧ e.Key = g.dir.Name ∧
      g'.phase = .finished) := by
  obtain ⟨dir, phase⟩ := g
  rcases hphase with hp | ⟨e, hp, hk, hd⟩ | hp
  · simp only at hp
    subst hp
    right; left
    cases hd : dir.IsDir with
    | true =>
      obtain ⟨data, e, hr, hu, hk⟩ := hread hd
      simp only at hr hk
      refine ⟨⟨dir, .loaded e⟩, ?_, rfl, ?_, ?_, Or.inr (Or.inl ⟨e, rfl, hk, hd⟩)⟩
      · simp only [stepGoroutine, hd, if_true, hr, hu]
      · simp [Goroutine.published, Goroutine.returned]
      · simp [Goroutine.published, Goroutine.returned]
    | false =>
      refine ⟨⟨dir, .finished⟩, ?_, rfl, ?_, ?_, Or.inr (Or.inr rfl)⟩
      · simp only [stepGoroutine, hd, Bool.false_eq_true, if_false]
      · simp [Goroutine.published, Goroutine.returned]
      · simp [Goroutine.published, hd]
  · simp only at hp hk hd
    subst hp
    right; right
    refine ⟨⟨dir, .finished⟩, e, ?_, rfl, ?_, ?_, hk, rfl⟩
    · simp only [stepGoroutine, hk, if_true]
    · simp [Goroutine.published, Goroutine.returned]
    · simp [Goroutine.published, Goroutine.returned, hd]
  · simp only at hp
    subst hp
    left
    rfl

theorem filter_published_middle (pre post : List Goroutine) (g : Goroutine) :
    (pre ++ g :: post).filter Goroutine.published =
      pre.filter Goroutine.published ++
        (if g.published = true then [g] else []) ++ post.filter Goroutine.published := by
  rw [List.filter_append, List.filter_cons]
  by_cases h : g.published = true
  · simp [h]
  · simp [h]

/-- Every step of the process keeps `GoodInv` when every directory of the
library is in step with its metadata. -/
theorem step_goodInv (env : Env) (path : String) (w : World)
    (hread : ∀ i ∈ readDir w.fs, i.IsDir = true → ∃ data e,
      readEntryYaml w.fs i.Name = .ok data ∧ env.unmarshal data = some e ∧ e.GetKey = i.Name)
    (c c' : Config) (hinv : GoodInv w c) (hstep : Step env path c c') : GoodInv w c' := by
  obtain ⟨hw, hp, hdirs, hph, hperm⟩ := hinv
  cases hstep with
  | panic w0 es pre post g p h =>
    exfalso
    simp only at hw hdirs hph
    subst hw
    have hg : g ∈ pre ++ g :: post := (mem_middle pre post g g).mpr (Or.inl rfl)
    have hgd : g.dir ∈ readDir w0.fs := by
      rw [← hdirs]; exact List.mem_map_of_mem (fun g => g.dir) hg
    rcases stepGoroutine_good env path w0 es g (hph g hg) (hread g.dir hgd) with
      h0 | ⟨g', h1, _⟩ | ⟨g', e, h1, _⟩
    · rw [h0] at h; simp at h
    · rw [h1] at h; simp at h
    · rw [h1] at h; simp at h
  | advance w0 w' es es' pre post g g' h =>
    simp only at hw hdirs hph hperm
    subst hw
    have hg : g ∈ pre ++ g :: post := (mem_middle pre post g g).mpr (Or.inl rfl)
    have hgd : g.dir ∈ readDir w0.fs := by
      rw [← hdirs]; exact List.mem_map_of_mem (fun g => g.dir) hg
    have hmapdir : ∀ g2 : Goroutine, g2.dir = g.dir →
        (pre ++ g2 :: post).map (fun g => g.dir) = readDir w0.fs := by
      intro g2 h2
      rw [← hdirs]
      simp only [List.map_append, List.map_cons, h2]
    have hphases : ∀ g2 : Goroutine,
        (g2.phase = .start ∨
          (∃ e, g2.phase = .loaded e ∧ e.GetKey = g2.dir.Name ∧ g2.dir.IsDir = true) ∨
          g2.phase = .finished) →
        ∀ x ∈ pre ++ g2 :: post, x.phase = .start ∨
          (∃ e, x.phase = .loaded e ∧ e.GetKey = x.dir.Name ∧ x.dir.IsDir = true) ∨
          x.phase = .finished := by
      intro g2 h2 x hx
      rcases (mem_middle pre post g2 x).mp hx with rfl | hx
      · exact h2
      · exact hph x ((mem_middle pre post g x).mpr (Or.inr hx))
    rw [filter_published_middle] at hperm
    rcases stepGoroutine_good env path w0 es g (hph g hg) (hread g.dir hgd) with
      h0 | ⟨g2, h1, hd2, hpub, hpub2, hph2⟩ | ⟨g2, e, h1, hd2, hpub, hpub2, hk, hph2⟩
    · rw [h0] at h; simp at h
    · rw [h1] at h
      simp only [Option.some.injEq, Except.ok.injEq, Prod.mk.injEq] at h
      obtain ⟨rfl, rfl, rfl⟩ := h
      refine ⟨rfl, rfl, hmapdir g2 hd2, hphases g2 hph2, ?_⟩
      simp only
      rw [filter_published_middle]
      rw [hpub] at hperm
      rw [hpub2]
      exact hperm
    · rw [h1] at h
      simp only [Option.some.injEq, Except.ok.injEq, Prod.mk.injEq] at h
      obtain ⟨rfl, rfl, rfl⟩ := h
      refine ⟨rfl, rfl, hmapdir g2 hd2, hphases g2 (Or.inr (Or.inr hph2)), ?_⟩
      simp only
      rw [filter_published_middle]
      rw [hpub] at hperm
      rw [hpub2]
      simp only [Bool.false_eq_true, if_false, List.append_nil, if_true, List.map_append,
        List.map_cons, List.map_nil, List.append_assoc, List.singleton_append] at hperm ⊢
      rw [hk, hd2]
      have hmid := @List.perm_middle _ g.dir.Name
        (List.map (fun g => g.dir.Name) (List.filter Goroutine.published pre))
        (List.map (fun g => g.dir.Name) (List.filter Goroutine.published post))
      exact (hperm.append_right [g.dir.Name]).trans
        ((List.perm_append_singleton g.dir.Name _).trans hmid.symm)

theorem reachable_goodInv (env : Env) (path : String) (w : World)
    (hread : ∀ i ∈ readDir w.fs, i.IsDir = true → ∃ data e,
      readEntryYaml w.fs i.Name = .ok data ∧ env.unmarshal data = some e ∧ e.GetKey = i.Name)
    (c : Config) (h : Reachable env path w c) : GoodInv w c := by
  induction h with
  | init =>
    refine ⟨rfl, rfl, ?_, ?_, ?_⟩
    · simp [initial, Function.comp_def]
    · intro g hg
      simp only [initial, List.mem_map] at hg
      obtain ⟨i, _, rfl⟩ := hg
      exact Or.inl rfl
    · have hnil : (initial w).goroutines.filter Goroutine.published = [] := by
        rw [List.filter_eq_nil_iff]
        intro g hg
        simp only [initial, List.mem_map] at hg
        obtain ⟨i, _, rfl⟩ := hg
        simp [Goroutine.published, Goroutine.returned]
      rw [hnil]
      exact List.Perm.refl _
  | step c c' _ hstep ih => exact step_goodInv env path w hread c c' ih hstep

/-- When every goroutine has returned, the directories whose goroutine has
published are the directories of the listing. -/
theorem published_names_of_returned (gs : List Goroutine)
    (hall : ∀ g ∈ gs, g.returned = true) :
    (gs.filter Goroutine.published).map (fun g => g.dir.Name) =
      (((gs.map (fun g => g.dir)).filter (fun i => i.IsDir)).map (fun i => i.Name)) := by
  induction gs with
  | nil => rfl
  | cons g rest ih =>
    have hg : g.returned = true := hall g (List.mem_cons_self _ _)
    have hrest := ih (fun x hx => hall x (List.mem_cons_of_mem _ hx))
    simp only [List.filter_cons, List.map_cons, Goroutine.published, hg, Bool.and_true]
    by_cases hd : g.dir.IsDir = true
    · simp only [hd, if_true, List.map_cons]
      rw [← hrest]
    · simp only [hd, Bool.false_eq_true, if_false]
      rw [← hrest]

/-! ## The goroutines run one after the other: one of the interleavings -/

theorem reachable_of_steps (env : Env) (path : String) (w : World) (c c' : Config)
    (h : Reachable env path w c) (hs : Relation.ReflTransGen (Step env path) c c') :
    Reachable env path w c' := by
  induction hs with
  | refl => exact h
  | tail _ hstep ih => exact Reachable.step _ _ ih hstep

/-- A repair that completes is four steps of the goroutine that has read its
metadata. -/
theorem checkDirKey_steps (env : Env) (path : String) (w w' : World) (es : List Entry)
    (pre post : List Goroutine) (i : FileInfo) (e e' : Entry)
    (h : checkDirKey env path i.Name w e = .ok (w', e')) :
    Relation.ReflTransGen (Step env path) ⟨w, es, pre ++ ⟨i, .loaded e⟩ :: post, none⟩
      ⟨w', es ++ [e'], pre ++ ⟨i, .finished⟩ :: post, none⟩ := by
  unfold checkDirKey at h
  split at h
  · rename_i heq
    simp only [Except.ok.injEq, Prod.mk.injEq] at h
    obtain ⟨rfl, rfl⟩ := h
    exact Relation.ReflTransGen.single
      (Step.advance w w es (es ++ [e]) pre post ⟨i, .loaded e⟩ ⟨i, .finished⟩
        (by simp only [stepGoroutine, heq, if_true]))
  · rename_i hne
    split at h
    · simp at h
    · rename_i fs1 h1
      simp only at h
      split at h
      · simp at h
      · rename_i fs2 h2
        split at h
        · simp at h
        · rename_i fs3 h3
          simp only [Except.ok.injEq, Prod.mk.injEq] at h
          obtain ⟨rfl, rfl⟩ := h
          have s1 : Step env path ⟨w, es, pre ++ ⟨i, .loaded e⟩ :: post, none⟩
              ⟨{ w with fs := fs1 }, es, pre ++ ⟨i, .holding e⟩ :: post, none⟩ :=
            Step.advance w _ es es pre post ⟨i, .loaded e⟩ ⟨i, .holding e⟩
              (by simp only [stepGoroutine, if_neg hne, h1])
          have s2 : Step env path
              ⟨{ w with fs := fs1 }, es, pre ++ ⟨i, .holding e⟩ :: post, none⟩
              ⟨{ w with fs := fs1 }, es,
                pre ++ ⟨i, .allocated { e with Key := env.getUniqueKey fs1 e.GetKey }⟩ :: post,
                none⟩ :=
            Step.advance _ _ es es pre post ⟨i, .holding e⟩ _
              (by simp only [stepGoroutine])
          have s3 : Step env path
              ⟨{ w with fs := fs1 }, es,
                pre ++ ⟨i, .allocated { e with Key := env.getUniqueKey fs1 e.GetKey }⟩ :: post,
                none⟩
              ⟨{ w with fs := fs2 }, es,
                pre ++ ⟨i, .moved { e with Key := env.getUniqueKey fs1 e.GetKey }⟩ :: post,
                none⟩ :=
            Step.advance _ _ es es pre post _ _
              (by simp only [stepGoroutine, h2])
          have s4 : Step env path
              ⟨{ w with fs := fs2 }, es,
                pre ++ ⟨i, .moved { e with Key := env.getUniqueKey fs1 e.GetKey }⟩ :: post,
                none⟩
              ⟨{ fs := fs3, out := w.out ++ auditLines path i.Name
                  (Entry.GetKey { e with Key := env.getUniqueKey fs1 e.GetKey }) },
                es ++ [{ e with Key := env.getUniqueKey fs1 e.GetKey }],
                pre ++ ⟨i, .finished⟩ :: post, none⟩ :=
            Step.advance _ _ es _ pre post _ _
              (by simp only [stepGoroutine, h3])
          exact (((Relation.ReflTransGen.single s1).tail s2).tail s3).tail s4

/-- A goroutine that completes when run without interruption is a sequence of
steps of the process. -/
theorem worker_steps (env : Env) (path : String) (w w' : World) (es es' : List Entry)
    (pre post : List Goroutine) (i : FileInfo)
    (h : worker env path (w, es) i = .ok (w', es')) :
    Relation.ReflTransGen (Step env path) ⟨w, es, pre ++ ⟨i, .start⟩ :: post, none⟩
      ⟨w', es', pre ++ ⟨i, .finished⟩ :: post, none⟩ := by
  unfold worker at h
  split at h
  · rename_i hd
    simp only at h
    split at h
    · simp at h
    · rename_i data hr
      split at h
      · simp at h
      · rename_i e hu
        split at h
        · simp at h
        · rename_i w2 e2 hc
          simp only [Except.ok.injEq, Prod.mk.injEq] at h
          obtain ⟨rfl, rfl⟩ := h
          have s1 : Step env path ⟨w, es, pre ++ ⟨i, .start⟩ :: post, none⟩
              ⟨w, es, pre ++ ⟨i, .loaded e⟩ :: post, none⟩ :=
            Step.advance w w es es pre post ⟨i, .start⟩ ⟨i, .loaded e⟩
              (by simp only [stepGoroutine, hd, if_true, hr, hu])
          exact Relation.ReflTransGen.head s1
            (checkDirKey_steps env path w w2 es pre post i e e2 hc)
  · rename_i hd
    simp only [Except.ok.injEq, Prod.mk.injEq] at h
    obtain ⟨rfl, rfl⟩ := h
    exact Relation.ReflTransGen.single
      (Step.advance w w es es pre post ⟨i, .start⟩ ⟨i, .finished⟩
        (by simp only [stepGoroutine, hd, Bool.false_eq_true, if_false]))

theorem runWorkers_steps (env : Env) (path : String) :
    ∀ (ds : List FileInfo) (fin : List Goroutine) (w w' : World) (es es' : List Entry),
      runWorkers env path (w, es) ds = .ok (w', es') →
      Relation.ReflTransGen (Step env path)
        ⟨w, es, fin ++ ds.map (fun i => ⟨i, .start⟩), none⟩
        ⟨w', es', fin ++ ds.map (fun i => ⟨i, .finished⟩), none⟩ := by
  intro ds
  induction ds with
  | nil =>
    intro fin w w' es es' h
    simp only [runWorkers, Except.ok.injEq, Prod.mk.injEq] at h
    obtain ⟨rfl, rfl⟩ := h
    exact Relation.ReflTransGen.refl
  | cons i rest ih =>
    intro fin w w' es es' h
    unfold runWorkers at h
    split at h
    · simp at h
    · rename_i acc hw
      obtain ⟨w1, es1⟩ := acc
      have hs := worker_steps env path w w1 es es1 fin (rest.map (fun i => ⟨i, .start⟩)) i hw
      have hr := ih (fin ++ [⟨i, .finished⟩]) w1 w' es1 es' h
      simp only [List.append_assoc, List.singleton_append] at hr
      simp only [List.map_cons]
      exact hs.trans hr

/-- The run of `entryList` in which each goroutine completes before the next
one starts is one of the interleavings: its result is a reachable configuration
in which every goroutine has returned. -/
theorem entryList_reachable (env : Env) (path : String) (w w' : World) (es : List Entry)
    (h : entryList env path w = .ok (es, w')) :
    Reachable env path w
      ⟨w', es, (readDir w.fs).map (fun i => ⟨i, .finished⟩), none⟩ := by
  unfold entryList at h
  split at h
  · simp at h
  · rename_i w2 es2 hr
    simp only [Except.ok.injEq, Prod.mk.injEq] at h
    obtain ⟨rfl, rfl⟩ := h
    have hs := runWorkers_steps env path (readDir w.fs) [] w w2 [] es2 hr
    simp only [List.nil_append] at hs
    exact reachable_of_steps env path w _ _ Reachable.init hs

/-! ## Loading twice, when the metadata can be written -/

/-- Everything a repair that completes leaves behind. -/
theorem checkDirKey_complete_full (env : Env) (path dir : String) (w w' : World)
    (e e' : Entry) (d : Dir) (hne : dir ≠ e.GetKey) (hdir : lookup w.fs dir = some (.dir d))
    (h : checkDirKey env path dir w e = .ok (w', e')) :
    lookup w.fs tmpName = none ∧
    lookup (relabel w.fs dir tmpName) e'.Key = none ∧
    (∃ y, env.marshal e' = some y ∧ lookup w'.fs e'.Key = some (.dir (afterWrite d y))) ∧
    w'.out = w.out ++ auditLines path dir e'.Key ∧
    lookup w'.fs tmpName = none ∧
    (e'.Key ≠ dir → lookup w'.fs dir = none) ∧
    ∀ b, b ≠ dir → b ≠ e'.Key → b ≠ tmpName → lookup w'.fs b = lookup w.fs b := by
  obtain ⟨htmp, he', hfree, hdv, hkv, y, hy, hk⟩ :=
    checkDirKey_complete env path dir w w' e e' d hne hdir h
  have hkey : e'.Key = env.getUniqueKey (relabel w.fs dir tmpName) e.GetKey := by
    rw [he']
  obtain ⟨w2, hc, hout, _, ht, ho, hfr⟩ :=
    checkDirKey_repair env path dir e'.Key y w e d hne hdir htmp hkey hfree
      (by rw [hkey, ← he']; exact hy) hdv hkv
  rw [h] at hc
  simp only [Except.ok.injEq, Prod.mk.injEq] at hc
  obtain ⟨rfl, _⟩ := hc
  exact ⟨htmp, hfree, ⟨y, hy, hk⟩, hout, ht, ho, hfr⟩

theorem afterWrite_writable (d : Dir) (f : File) (y : String) (hf : d.entryYaml = some f)
    (hw : f.writable = true) :
    (afterWrite d y).entryYaml = some { f with data := y } := by
  unfold afterWrite writeYamlIn
  simp [hf, hw]

theorem readEntryYaml_ok_inv (fs : Lib) (n data : String) (h : readEntryYaml fs n = .ok data) :
    ∃ d f, lookup fs n = some (.dir d) ∧ d.entryYaml = some f ∧ f.readable = true ∧
      f.data = data := by
  unfold readEntryYaml at h
  split at h
  · rename_i d hl
    split at h
    · rename_i f hf
      split at h
      · rename_i hr
        simp only [Except.ok.injEq] at h
        exact ⟨d, f, hl, hf, hr, h⟩
      · simp at h
    · simp at h
  · simp at h
  · simp at h

theorem mem_cons_dir_iff (i : FileInfo) (rest : List FileInfo) (k : String)
    (hne : k ≠ i.Name) : (⟨k, true⟩ : FileInfo) ∈ i :: rest ↔ (⟨k, true⟩ : FileInfo) ∈ rest := by
  rw [List.mem_cons]
  constructor
  · rintro (h | h)
    · exfalso; apply hne; rw [← h]
    · exact h
  · exact Or.inr

theorem not_mem_rest_of_nodup (i : FileInfo) (rest : List FileInfo)
    (hnd : ((i :: rest).map (fun i => i.Name)).Nodup) (b : Bool) :
    (⟨i.Name, b⟩ : FileInfo) ∉ rest := by
  simp only [List.map_cons, List.nodup_cons] at hnd
  intro h
  exact hnd.1 (List.mem_map_of_mem (fun i => i.Name) h)

/-- A goroutine for a plain file keeps `LoadInv`. -/
theorem loadInv_skip (env : Env) (w : World) (es : List Entry) (i : FileInfo)
    (rest : List FileInfo) (hd : i.IsDir = false) (hinv : LoadInv env w es (i :: rest)) :
    LoadInv env w es rest := by
  obtain ⟨hwf, hmw, hnd, hdirs, hcov, hkeys⟩ := hinv
  have hne : ∀ k, (⟨k, true⟩ : FileInfo) ≠ i := by
    intro k h
    rw [← h] at hd
    simp at hd
  have hiff : ∀ k, (⟨k, true⟩ : FileInfo) ∈ i :: rest ↔ (⟨k, true⟩ : FileInfo) ∈ rest := by
    intro k
    rw [List.mem_cons]
    exact ⟨fun h => h.resolve_left (hne k), Or.inr⟩
  refine ⟨hwf, hmw, ?_, fun j hj => hdirs j (List.mem_cons_of_mem _ hj), ?_, ?_⟩
  · simp only [List.map_cons, List.nodup_cons] at hnd
    exact hnd.2
  · intro n hn
    rcases hcov n hn with h | h
    · exact Or.inl ((hiff n).mp h)
    · exact Or.inr h
  · intro k
    rw [hkeys k, hiff k]

/-- A goroutine for a directory that is in step with its metadata keeps
`LoadInv`. -/
theorem loadInv_match (env : Env) (w : World) (es : List Entry) (name : String)
    (rest : List FileInfo) (e : Entry) (hstep : InStep env w.fs name) (hk : e.Key = name)
    (hinv : LoadInv env w es (⟨name, true⟩ :: rest)) :
    LoadInv env w (es ++ [e]) rest := by
  obtain ⟨hwf, hmw, hnd, hdirs, hcov, hkeys⟩ := hinv
  have hnot : (⟨name, true⟩ : FileInfo) ∉ rest :=
    not_mem_rest_of_nodup ⟨name, true⟩ rest hnd true
  have hdir : isDirAt w.fs name = true := hdirs _ (List.mem_cons_self _ _) rfl
  refine ⟨hwf, hmw, ?_, fun j hj => hdirs j (List.mem_cons_of_mem _ hj), ?_, ?_⟩
  · simp only [List.map_cons, List.nodup_cons] at hnd
    exact hnd.2
  · intro n hn
    rcases hcov n hn with h | h
    · rcases List.mem_cons.mp h with h | h
      · simp only [FileInfo.mk.injEq, and_true] at h
        rw [h]; exact Or.inr hstep
      · exact Or.inl h
    · exact Or.inr h
  · intro k
    simp only [List.map_append, List.map_cons, List.map_nil, List.mem_append,
      List.mem_singleton]
    constructor
    · rintro (h | h)
      · obtain ⟨h1, h2⟩ := (hkeys k).mp h
        exact ⟨h1, fun hin => h2 (List.mem_cons_of_mem _ hin)⟩
      · rw [h, hk]; exact ⟨hdir, hnot⟩
    · rintro ⟨h1, h2⟩
      by_cases hkn : k = name
      · right; rw [hkn, hk]
      · left
        apply (hkeys k).mpr
        refine ⟨h1, ?_⟩
        rw [mem_cons_dir_iff ⟨name, true⟩ rest k hkn]
        exact h2

theorem isDirAt_congr (fs fs' : Lib) (b : String) (h : lookup fs' b = lookup fs b) :
    isDirAt fs' b = isDirAt fs b := by
  unfold isDirAt
  rw [h]

/-- A goroutine that repairs its directory keeps `LoadInv`, when the codec gives
back what it has serialised. -/
theorem loadInv_repair (env : Env) (path name : String) (w w1 : World) (es : List Entry)
    (rest : List FileInfo) (e e1 : Entry) (d : Dir) (f : File) (hrt : env.RoundTrip)
    (hinv : LoadInv env w es (⟨name, true⟩ :: rest))
    (hl : lookup w.fs name = some (.dir d)) (hf : d.entryYaml = some f)
    (hr : f.readable = true) (hne : name ≠ e.GetKey)
    (hc : checkDirKey env path name w e = .ok (w1, e1)) :
    LoadInv env w1 (es ++ [e1]) rest := by
  obtain ⟨hwf, hmw, hnd, hdirs, hcov, hkeys⟩ := hinv
  obtain ⟨htmp, hfree, ⟨y, hy, hk⟩, _, ht1, ho, hfr⟩ :=
    checkDirKey_complete_full env path name w w1 e e1 d hne hl hc
  have hnot : ∀ b, (⟨name, b⟩ : FileInfo) ∉ rest := fun b =>
    not_mem_rest_of_nodup ⟨name, true⟩ rest hnd b
  have hA : ∀ b, b ≠ name → lookup w.fs b ≠ none →
      b ≠ e1.Key ∧ lookup w1.fs b = lookup w.fs b := by
    intro b hb hsome
    have hbt : b ≠ tmpName := by
      rintro rfl; exact hsome htmp
    have hbk : b ≠ e1.Key := by
      rintro rfl
      rw [lookup_relabel_of_ne _ _ _ _ hb hbt] at hfree
      exact hsome hfree
    exact ⟨hbk, hfr b hb hbk hbt⟩
  have hB : ∀ b, b ≠ e1.Key → isDirAt w1.fs b = true →
      b ≠ name ∧ lookup w1.fs b = lookup w.fs b := by
    intro b hbk hdir
    have hbt : b ≠ tmpName := by
      rintro rfl
      simp [isDirAt, ht1] at hdir
    have hbn : b ≠ name := by
      rintro rfl
      simp [isDirAt, ho (Ne.symm hbk)] at hdir
    exact ⟨hbn, hfr b hbn hbk hbt⟩
  have hfw : f.writable = true := hmw name d f hl hf
  have hyaml := afterWrite_writable d f y hf hfw
  have hC : InStep env w1.fs e1.Key :=
    ⟨afterWrite d y, { f with data := y }, e1, hk, hyaml, hr, hrt e1 y hy, rfl⟩
  have hdk : isDirAt w1.fs e1.Key = true := (isDirAt_iff _ _).mpr ⟨_, hk⟩
  refine ⟨checkDirKey_wf env path name w w1 e e1 hwf hc, ?_, ?_, ?_, ?_, ?_⟩
  · intro n d2 f2 hl2 hf2
    by_cases hnk : n = e1.Key
    · rw [hnk, hk] at hl2
      simp only [Option.some.injEq, Node.dir.injEq] at hl2
      rw [← hl2, hyaml] at hf2
      simp only [Option.some.injEq] at hf2
      rw [← hf2]; exact hfw
    · obtain ⟨_, heq⟩ := hB n hnk ((isDirAt_iff _ _).mpr ⟨d2, hl2⟩)
      rw [heq] at hl2
      exact hmw n d2 f2 hl2 hf2
  · simp only [List.map_cons, List.nodup_cons] at hnd
    exact hnd.2
  · intro j hj hjd
    have hjn : j.Name ≠ name := by
      intro h
      apply hnot j.IsDir
      rw [← h]; exact hj
    have hd0 := hdirs j (List.mem_cons_of_mem _ hj) hjd
    obtain ⟨d0, hd0'⟩ := (isDirAt_iff _ _).mp hd0
    obtain ⟨_, heq⟩ := hA j.Name hjn (by rw [hd0']; simp)
    rw [isDirAt_congr _ _ _ heq]; exact hd0
  · intro n hn
    by_cases hnk : n = e1.Key
    · rw [hnk]; exact Or.inr hC
    · obtain ⟨hnn, heq⟩ := hB n hnk hn
      rw [isDirAt_congr _ _ _ heq] at hn
      rcases hcov n hn with h | ⟨d0, f0, e0, h1, h2, h3, h4, h5⟩
      · exact Or.inl ((mem_cons_dir_iff ⟨name, true⟩ rest n hnn).mp h)
      · exact Or.inr ⟨d0, f0, e0, by rw [heq]; exact h1, h2, h3, h4, h5⟩
  · intro k
    simp only [List.map_append, List.map_cons, List.map_nil, List.mem_append,
      List.mem_singleton]
    constructor
    · rintro (h | h)
      · obtain ⟨h1, h2⟩ := (hkeys k).mp h
        have hkn : k ≠ name := by
          rintro rfl
          exact h2 (List.mem_cons_self _ _)
        obtain ⟨d0, hd0⟩ := (isDirAt_iff _ _).mp h1
        obtain ⟨_, heq⟩ := hA k hkn (by rw [hd0]; simp)
        exact ⟨by rw [isDirAt_congr _ _ _ heq]; exact h1,
          fun hin => h2 (List.mem_cons_of_mem _ hin)⟩
      · rw [h]
        refine ⟨hdk, ?_⟩
        intro hin
        have hd0 := hdirs _ (List.mem_cons_of_mem _ hin) rfl
        obtain ⟨d0, hd0'⟩ := (isDirAt_iff _ _).mp hd0
        have hkn : e1.Key ≠ name := by
          intro h2
          apply hnot true
          rw [← h2]; exact hin
        exact (hA e1.Key hkn (by rw [hd0']; simp)).1 rfl
    · rintro ⟨h1, h2⟩
      by_cases hkk : k = e1.Key
      · exact Or.inr hkk
      · left
        obtain ⟨hkn, heq⟩ := hB k hkk h1
        apply (hkeys k).mpr
        refine ⟨by rw [← isDirAt_congr _ _ _ heq]; exact h1, ?_⟩
        rw [mem_cons_dir_iff ⟨name, true⟩ rest k hkn]
        exact h2

/-- A goroutine that completes keeps `LoadInv`. -/
theorem worker_loadInv (env : Env) (path : String) (w w1 : World) (es es1 : List Entry)
    (i : FileInfo) (rest : List FileInfo) (hrt : env.RoundTrip)
    (hinv : LoadInv env w es (i :: rest)) (h : worker env path (w, es) i = .ok (w1, es1)) :
    LoadInv env w1 es1 rest := by
  obtain ⟨name, isDir⟩ := i
  cases isDir with
  | false =>
    simp only [worker, Bool.false_eq_true, if_false, Except.ok.injEq, Prod.mk.injEq] at h
    obtain ⟨rfl, rfl⟩ := h
    exact loadInv_skip env w es ⟨name, false⟩ rest rfl hinv
  | true =>
    unfold worker at h
    simp only [if_true] at h
    split at h
    · simp at h
    · rename_i data hr
      obtain ⟨d, f, hl, hf, hrd, hdata⟩ := readEntryYaml_ok_inv _ _ _ hr
      split at h
      · simp at h
      · rename_i e hu
        split at h
        · simp at h
        · rename_i w2 e2 hc
          simp only [Except.ok.injEq, Prod.mk.injEq] at h
          obtain ⟨rfl, rfl⟩ := h
          by_cases hk : name = e.GetKey
          · rw [checkDirKey_of_eq env path name w e hk] at hc
            simp only [Except.ok.injEq, Prod.mk.injEq] at hc
            obtain ⟨rfl, rfl⟩ := hc
            exact loadInv_match env w es name rest e
              ⟨d, f, e, hl, hf, hrd, by rw [hdata]; exact hu, hk.symm⟩ hk.symm hinv
          · exact loadInv_repair env path name w w2 es rest e e2 d f hrt hinv hl hf hrd hk hc

theorem runWorkers_loadInv (env : Env) (path : String) (hrt : env.RoundTrip) :
    ∀ (ds : List FileInfo) (w w1 : World) (es es1 : List Entry),
      LoadInv env w es ds → runWorkers env path (w, es) ds = .ok (w1, es1) →
      LoadInv env w1 es1 [] := by
  intro ds
  induction ds with
  | nil =>
    intro w w1 es es1 hinv h
    simp only [runWorkers, Except.ok.injEq, Prod.mk.injEq] at h
    obtain ⟨rfl, rfl⟩ := h
    exact hinv
  | cons i rest ih =>
    intro w w1 es es1 hinv h
    unfold runWorkers at h
    split at h
    · simp at h
    · rename_i acc hw
      obtain ⟨w2, es2⟩ := acc
      exact ih w2 w1 es2 es1 (worker_loadInv env path w w2 es es2 i rest hrt hinv hw) h

theorem mem_dirNames_iff (fs : Lib) (hwf : fs.WF) (k : String) :
    k ∈ dirNames fs ↔ isDirAt fs k = true := by
  simp only [dirNames, List.mem_map, List.mem_filter]
  constructor
  · rintro ⟨i, ⟨hi, hd⟩, rfl⟩
    obtain ⟨d, hmem⟩ := mem_readDir_inv fs i hi hd
    exact (isDirAt_iff _ _).mpr ⟨d, lookup_of_mem _ hwf _ _ hmem⟩
  · intro h
    obtain ⟨d, hd⟩ := (isDirAt_iff _ _).mp h
    exact ⟨⟨k, true⟩, ⟨mem_readDir_dir _ _ _ (mem_of_lookup _ _ _ hd), rfl⟩, rfl⟩

/-- Idempotence of loading when the metadata can be written. The names of the
library are distinct, every `entry.yaml` is writable and the codec gives back
what it has serialised: if the load completes, with its goroutines run one
after the other, then a second load of the library it leaves completes, leaves
the library and the printed lines as they are, and returns the same set of
keys. -/
theorem entryList_idempotent_of_writable (env : Env) (path : String) (w w1 : World)
    (es : List Entry) (hwf : w.fs.WF) (hmw : MetaWritable w.fs) (hrt : env.RoundTrip)
    (h : entryList env path w = .ok (es, w1)) :
    ∃ es2, entryList env path w1 = .ok (es2, w1) ∧
      ∀ k, k ∈ es.map (fun e => e.Key) ↔ k ∈ es2.map (fun e => e.Key) := by
  have hrun : runWorkers env path (w, []) (readDir w.fs) = .ok (w1, es) := by
    unfold entryList at h
    split at h
    · simp at h
    · rename_i w2 es2 hr
      simp only [Except.ok.injEq, Prod.mk.injEq] at h
      obtain ⟨rfl, rfl⟩ := h
      exact hr
  have hinit : LoadInv env w [] (readDir w.fs) := by
    refine ⟨hwf, hmw, by rw [readDir_names]; exact hwf, ?_, ?_, ?_⟩
    · intro j hj hjd
      obtain ⟨d, hmem⟩ := mem_readDir_inv _ j hj hjd
      exact (isDirAt_iff _ _).mpr ⟨d, lookup_of_mem _ hwf _ _ hmem⟩
    · intro n hn
      obtain ⟨d, hd⟩ := (isDirAt_iff _ _).mp hn
      exact Or.inl (mem_readDir_dir _ _ _ (mem_of_lookup _ _ _ hd))
    · intro k
      simp only [List.map_nil, List.not_mem_nil, false_iff, not_and, not_not]
      intro hk
      obtain ⟨d, hd⟩ := (isDirAt_iff _ _).mp hk
      exact mem_readDir_dir _ _ _ (mem_of_lookup _ _ _ hd)
  obtain ⟨hwf1, _, _, _, hcov, hkeys⟩ :=
    runWorkers_loadInv env path hrt (readDir w.fs) w w1 [] es hinit hrun
  have hg : ∀ name d, lookup w1.fs name = some (Node.dir d) →
      ∃ f e, d.entryYaml = some f ∧ f.readable = true ∧ env.unmarshal f.data = some e ∧
        e.GetKey = name := by
    intro name d hl
    rcases hcov name ((isDirAt_iff _ _).mpr ⟨d, hl⟩) with h0 | ⟨d0, f0, e0, h1, h2, h3, h4, h5⟩
    · simp at h0
    · rw [hl] at h1
      simp only [Option.some.injEq, Node.dir.injEq] at h1
      subst h1
      exact ⟨f0, e0, h2, h3, h4, h5⟩
  have hds : ∀ i ∈ readDir w1.fs, i.IsDir = true →
      ∃ d, lookup w1.fs i.Name = some (Node.dir d) := by
    intro i hi hd
    obtain ⟨d, hmem⟩ := mem_readDir_inv _ i hi hd
    exact ⟨d, lookup_of_mem _ hwf1 _ _ hmem⟩
  obtain ⟨es2, hes2, hk2⟩ := runWorkers_matching env path w1 hg (readDir w1.fs) [] hds
  refine ⟨es2, ?_, ?_⟩
  · unfold entryList
    rw [hes2]
    simp
  · intro k
    have hk2' : es2.map (fun e => e.Key) = dirNames w1.fs := hk2
    rw [hk2', mem_dirNames_iff _ hwf1, hkeys k]
    simp

/-- Instance of `entryList_idempotent_of_writable` on the library `libCollision`. -/
theorem entryList_idempotent_of_writable_example :
    ∃ es2, entryList lineEnv "/lib"
        ⟨[("smith2020", dirWithKey "smith2020"), ("smith2020a", dirWithKey "smith2020a")],
          ["Renamed:", "  /lib/smith2020a > /lib/smith2020", "Renamed:",
            "  /lib/zz > /lib/smith2020a"]⟩ =
        .ok (es2,
          ⟨[("smith2020", dirWithKey "smith2020"), ("smith2020a", dirWithKey "smith2020a")],
            ["Renamed:", "  /lib/smith2020a > /lib/smith2020", "Renamed:",
              "  /lib/zz > /lib/smith2020a"]⟩) ∧
      ∀ k, k ∈ [entryOfKey "smith2020", entryOfKey "smith2020a"].map (fun e => e.Key) ↔
        k ∈ es2.map (fun e => e.Key) :=
  entryList_idempotent_of_writable lineEnv "/lib" libCollision _ _ (by decide)
    (by
      intro n d f hl hf
      have hmem := mem_of_lookup _ _ _ hl
      simp only [libCollision, dirWithKey, dirOfKey, List.mem_cons, Prod.mk.injEq,
        Node.dir.injEq, List.not_mem_nil, or_false] at hmem
      rcases hmem with ⟨_, rfl⟩ | ⟨_, rfl⟩ <;>
        (simp only [Option.some.injEq] at hf; rw [← hf]))
    lineEnv_roundTrip (by decide)

/-! ## Loading a library -/

/-- C5. When some directory of the listing has no `entry.yaml`, one that cannot
be read, or one whose content does not deserialize, `entryList` returns no
collection. Run one after the other, the goroutines end in a panic; and under
every interleaving the goroutine of that directory has not returned, the step
it is about to take is a panic, and so the goroutines are never all done. -/
theorem entryList_fails_on_bad_directory (env : Env) (path : String) (w : World)
    (hwf : w.fs.WF) (name : String) (d : Dir) (hmem : (name, Node.dir d) ∈ w.fs)
    (hbad : d.entryYaml = none ∨
      ∃ f, d.entryYaml = some f ∧ (f.readable = false ∨ env.unmarshal f.data = none)) :
    (∃ p, entryList env path w = .error p) ∧
    ∀ c, Reachable env path w c →
      (⟨⟨name, true⟩, .start⟩ : Goroutine) ∈ c.goroutines ∧
      (∃ p, stepGoroutine env path c.world c.entries ⟨⟨name, true⟩, .start⟩ =
        some (.error p)) ∧
      ¬ (∀ g ∈ c.goroutines, g.returned = true) := by
  constructor
  · have hnd : ((readDir w.fs).map (fun i => i.Name)).Nodup := by
      rw [readDir_names]; exact hwf
    obtain ⟨p, hp⟩ := runWorkers_bad env path name d hbad (readDir w.fs) (w, []) hnd
      ⟨⟨name, true⟩, mem_readDir_dir _ _ _ hmem, rfl, rfl⟩ (lookup_of_mem _ hwf _ _ hmem)
    exact ⟨p, by unfold entryList; rw [hp]⟩
  · intro c hc
    obtain ⟨hin, hlook, _⟩ := reachable_badInv env path w hwf name d hmem hbad c hc
    refine ⟨hin, stepGoroutine_bad env path name c.world c.entries d hlook hbad, ?_⟩
    intro hall
    have := hall _ hin
    simp [Goroutine.returned] at this

/-- Instance of `entryList_fails_on_bad_directory` on `libMissingMeta`. -/
theorem entryList_fails_on_bad_directory_witness :
    (∃ p, entryList lineEnv "/lib" libMissingMeta = .error p) ∧
    ∀ c, Reachable lineEnv "/lib" libMissingMeta c →
      (⟨⟨"doe2017", true⟩, .start⟩ : Goroutine) ∈ c.goroutines ∧
      (∃ p, stepGoroutine lineEnv "/lib" c.world c.entries ⟨⟨"doe2017", true⟩, .start⟩ =
        some (.error p)) ∧
      ¬ (∀ g ∈ c.goroutines, g.returned = true) :=
  entryList_fails_on_bad_directory lineEnv "/lib" libMissingMeta (by decide) "doe2017"
    { entryYaml := none, others := [("paper.pdf", "%PDF")], canCreate := true }
    (by decide) (Or.inl rfl)

/-- C2. When every directory of the library holds a readable `entry.yaml` that
deserializes to an entry whose key is the name of the directory, `entryList`
returns one entry per directory, with that name as `Key`, and plain files
contribute nothing: run one after the other, the goroutines return the entries
in listing order and leave the library as it was; and under every interleaving
no goroutine panics, the library is left as it was, and once all goroutines are
done the keys collected are the names of the directories, in some order. -/
theorem entryList_matching (env : Env) (path : String) (w : World) (hwf : w.fs.WF)
    (hgood : ∀ name d, (name, Node.dir d) ∈ w.fs →
      ∃ f e, d.entryYaml = some f ∧ f.readable = true ∧ env.unmarshal f.data = some e ∧
        e.GetKey = name) :
    (∃ es, entryList env path w = .ok (es, w) ∧
      es.map (fun e => e.Key) = dirNames w.fs ∧ es.length = (dirNames w.fs).length) ∧
    ∀ c, Reachable env path w c → c.panicked = none ∧ c.world = w ∧
      ((∀ g ∈ c.goroutines, g.returned = true) →
        (c.entries.map (fun e => e.Key)).Perm (dirNames w.fs) ∧
        c.entries.length = (dirNames w.fs).length) := by
  have hg : ∀ name d, lookup w.fs name = some (Node.dir d) →
      ∃ f e, d.entryYaml = some f ∧ f.readable = true ∧ env.unmarshal f.data = some e ∧
        e.GetKey = name :=
    fun name d h => hgood name d (mem_of_lookup _ _ _ h)
  have hds : ∀ i ∈ readDir w.fs, i.IsDir = true →
      ∃ d, lookup w.fs i.Name = some (Node.dir d) := by
    intro i hi hd
    obtain ⟨d, hmem⟩ := mem_readDir_inv _ i hi hd
    exact ⟨d, lookup_of_mem _ hwf _ _ hmem⟩
  constructor
  · obtain ⟨es, hes, hkeys⟩ := runWorkers_matching env path w hg (readDir w.fs) [] hds
    refine ⟨es, ?_, hkeys, ?_⟩
    · unfold entryList
      rw [hes]
      simp
    · have := congrArg List.length hkeys
      simpa [dirNames] using this
  · intro c hc
    have hread : ∀ i ∈ readDir w.fs, i.IsDir = true → ∃ data e,
        readEntryYaml w.fs i.Name = .ok data ∧ env.unmarshal data = some e ∧
          e.GetKey = i.Name := by
      intro i hi hd
      obtain ⟨d, hl⟩ := hds i hi hd
      obtain ⟨f, e, hf, hr, hu, hk⟩ := hg i.Name d hl
      refine ⟨f.data, e, ?_, hu, hk⟩
      simp only [readEntryYaml, hl, hf, hr, if_true]
    obtain ⟨hw, hp, hdirs, _, hperm⟩ := reachable_goodInv env path w hread c hc
    refine ⟨hp, hw, ?_⟩
    intro hall
    rw [published_names_of_returned c.goroutines hall, hdirs] at hperm
    refine ⟨hperm, ?_⟩
    have := hperm.length_eq
    simpa [dirNames] using this

/-- Instance of `entryList_matching` on the library `libClean`. -/
theorem entryList_matching_witness :
    (∃ es, entryList lineEnv "/lib" libClean = .ok (es, libClean) ∧
      es.map (fun e => e.Key) = dirNames libClean.fs ∧
      es.length = (dirNames libClean.fs).length) ∧
    ∀ c, Reachable lineEnv "/lib" libClean c → c.panicked = none ∧ c.world = libClean ∧
      ((∀ g ∈ c.goroutines, g.returned = true) →
        (c.entries.map (fun e => e.Key)).Perm (dirNames libClean.fs) ∧
        c.entries.length = (dirNames libClean.fs).length) :=
  entryList_matching lineEnv "/lib" libClean (by decide) (by
    intro name d h
    simp only [libClean, dirWithKey, List.mem_cons, Prod.mk.injEq, Node.dir.injEq,
      List.mem_singleton, false_and, reduceCtorEq, and_false, List.not_mem_nil, or_false,
      false_or] at h
    rcases h with ⟨rfl, rfl⟩ | ⟨rfl, rfl⟩
    · exact ⟨_, entryOfKey "doe2017", rfl, rfl, by decide, rfl⟩
    · exact ⟨_, entryOfKey "smith2020", rfl, rfl, by decide, rfl⟩)

end Scholar
